import Mathlib

/-!
Verification of the CCS sparse-matrix program (src/main.py, class CCSMatrix).

The embedding models Python integers as Int, Python lists as List, and the
numeric entry type as Int (the program stores integers from randint(1,100)
when generating; file input may produce floats, whose specifics are outside
this development, so values are modeled as integers throughout).
Python list slicing l[s:e] is modeled for the regime 0 <= s that the
invariants guarantee; Python negative-index wraparound never occurs under
the invariants assumed by every theorem below.
Python random.random() and random.randint(1,100) are modeled as explicit
streams (functions from a call counter), universally quantified in the
theorems about random construction.
Python sorted(...) with a key is a stable sort; it is modeled by
List.insertionSort on the derived key relation, which Mathlib proves stable
(List.sublist_insertionSort); a stable sort of a list under a total
preorder is extensionally unique, so this is faithful to CPython timsort.
-/

/-- Python slice l[s:e] for integer bounds with 0 <= s (the in-range regime). -/
def pySlice {α : Type} (l : List α) (s e : Int) : List α :=
  (l.drop s.toNat).take (e - s).toNat

/-- Python range(s, e) over integers, as the list s, s+1, ..., e-1. -/
def intRange (s e : Int) : List Int :=
  (List.range (e - s).toNat).map (fun k => s + Int.ofNat k)

/-- The CCS matrix state: fields of class CCSMatrix in src/main.py. -/
structure CCSMatrix where
  rows : Int
  cols : Int
  values : List Int
  row_indices : List Int
  col_pointers : List Int
deriving DecidableEq

/-- The state established by CCSMatrix.__init__. -/
def CCSMatrix.init : CCSMatrix :=
  { rows := 0, cols := 0, values := [], row_indices := [], col_pointers := [0] }

/-- Accessor self.col_pointers[col]; the default 0 is never hit under the
invariants assumed by the theorems below. -/
def CCSMatrix.ptr (m : CCSMatrix) (c : Nat) : Int :=
  m.col_pointers.getD c 0

/-- The slice self.values[start:end] for one column. -/
def CCSMatrix.colData (m : CCSMatrix) (c : Nat) : List Int :=
  pySlice m.values (m.ptr c) (m.ptr (c + 1))

/-- The slice self.row_indices[start:end] for one column. -/
def CCSMatrix.colRows (m : CCSMatrix) (c : Nat) : List Int :=
  pySlice m.row_indices (m.ptr c) (m.ptr (c + 1))

/-- CCSMatrix.calculate_column_sums: one sum per column. -/
def CCSMatrix.calculate_column_sums (m : CCSMatrix) : List Int :=
  (List.range m.cols.toNat).map (fun c => (m.colData c).sum)

/-- The key relation of sorted(range(self.cols), key=lambda i: column_sums[i]). -/
def sumKeyLe (sums : List Int) (i j : Nat) : Prop :=
  sums.getD i 0 ≤ sums.getD j 0

instance (sums : List Int) : DecidableRel (sumKeyLe sums) :=
  fun _ _ => inferInstanceAs (Decidable (_ ≤ _))

/-- sorted_indices = sorted(range(self.cols), key=lambda i: column_sums[i]).
Python sorted is stable; insertionSort is the stable sort of the same key
relation, hence extensionally equal. -/
def CCSMatrix.sorted_indices (m : CCSMatrix) : List Nat :=
  List.insertionSort (sumKeyLe m.calculate_column_sums) (List.range m.cols.toNat)

/-- CCSMatrix.rearrange_columns: rebuilds values, row_indices and
col_pointers by concatenating the column slices in sorted order; the new
pointer appended after each column is previous-last plus (end - start). -/
def CCSMatrix.rearrange_columns (m : CCSMatrix) : CCSMatrix :=
  { m with
    values := m.sorted_indices.flatMap (fun c => m.colData c)
    row_indices := m.sorted_indices.flatMap (fun c => m.colRows c)
    col_pointers :=
      List.scanl (· + ·) 0 (m.sorted_indices.map (fun c => m.ptr (c + 1) - m.ptr c)) }

/-- The change table printed by rearrange_columns, one tuple
(new_position, original_column_index, column_sum) per row. -/
def CCSMatrix.rearrange_report (m : CCSMatrix) : List (Nat × Nat × Int) :=
  m.sorted_indices.enum.map (fun p => (p.1, p.2, m.calculate_column_sums.getD p.2 0))

/-- Invariants 1-4 of the data model: equal array lengths, pointer array
length cols + 1, pointers non-decreasing from 0 to len(values), and all
row indices within [0, rows). -/
def WF (m : CCSMatrix) : Prop :=
  m.values.length = m.row_indices.length ∧
  (m.col_pointers.length : Int) = m.cols + 1 ∧
  List.Sorted (· ≤ ·) m.col_pointers ∧
  m.col_pointers.head? = some 0 ∧
  m.col_pointers.getLast? = some (m.values.length : Int) ∧
  ∀ r ∈ m.row_indices, 0 ≤ r ∧ r < m.rows

instance (m : CCSMatrix) : Decidable (WF m) := by
  unfold WF; infer_instance

/-- The concrete matrix of the specification scenario. -/
def exampleM : CCSMatrix :=
  { rows := 3, cols := 3, values := [5, 1, 9], row_indices := [0, 2, 1],
    col_pointers := [0, 1, 2, 3] }

/-- The strict lexicographic order (column sum, then original column index)
that characterises the stable sort of rearrange_columns. -/
def lexLt (sums : List Int) (i j : Nat) : Prop :=
  sums.getD i 0 < sums.getD j 0 ∨ (sums.getD i 0 = sums.getD j 0 ∧ i < j)

/-! Random construction (create_random_matrix).  The Python calls
random.random() once per (col, row) position and random.randint(1,100) once
per accepted entry; they are modeled as streams g and h indexed by call
counters: g is indexed by the position counter col * rows + row, h by the
number of randint calls made so far, which equals the current length of
values. -/

/-- One iteration of the inner loop for row in range(rows): accept the
position with the density test and append value and row index. -/
def randStep (rowsN : Nat) (density : ℚ) (g : Nat → ℚ) (h : Nat → Int) (col : Nat)
    (st : List Int × List Int) (row : Nat) : List Int × List Int :=
  if g (col * rowsN + row) < density then
    (st.1 ++ [h st.1.length], st.2 ++ [(row : Int)])
  else st

/-- One iteration of the outer loop for col in range(cols): run the inner
loop, then append len(values) to col_pointers. -/
def randColumn (rowsN : Nat) (density : ℚ) (g : Nat → ℚ) (h : Nat → Int)
    (st : List Int × List Int × List Int) (col : Nat) : List Int × List Int × List Int :=
  let vr := (List.range rowsN).foldl (randStep rowsN density g h col) (st.1, st.2.1)
  (vr.1, vr.2, st.2.2 ++ [(vr.1.length : Int)])

/-- CCSMatrix.create_random_matrix: none models the ValueError raised when
the density is outside (0, 1]; the raise precedes every field assignment. -/
def create_random_matrix (rows cols : Int) (density : ℚ) (g : Nat → ℚ) (h : Nat → Int) :
    Option CCSMatrix :=
  if 0 < density ∧ density ≤ 1 then
    let st := (List.range cols.toNat).foldl (randColumn rows.toNat density g h) ([], [], [0])
    some { rows := rows, cols := cols, values := st.1, row_indices := st.2.1,
           col_pointers := st.2.2 }
  else none

/-- The menu caller catches the ValueError and keeps the existing matrix
object; on success the object holds the newly generated state. -/
def CCSMatrix.create_random_matrix_on (m : CCSMatrix) (rows cols : Int) (density : ℚ)
    (g : Nat → ℚ) (h : Nat → Int) : CCSMatrix :=
  (create_random_matrix rows cols density g h).getD m

/-! Persisted text format (save_matrix_to_file / read_matrix_from_file).
A file is four lines; a line is a list of characters.  Numbers are written
with str (decimal, optional leading minus) and read back with int; both are
modeled explicitly below at the digit level. -/

/-- Big-endian decimal digits of a natural number; the fuel argument makes
the recursion structural, and fuel n + 1 always suffices. -/
def decDigitsAux : Nat → Nat → List Nat
  | 0, _ => []
  | fuel + 1, n => if n < 10 then [n] else decDigitsAux fuel (n / 10) ++ [n % 10]

/-- Big-endian decimal digits of a natural number. -/
def decDigits (n : Nat) : List Nat :=
  decDigitsAux (n + 1) n

/-- The numeric value of a big-endian digit list, as int() accumulates it. -/
def digitsVal (ds : List Nat) : Nat :=
  ds.foldl (fun a d => a * 10 + d) 0

/-- The character for one decimal digit. -/
def digitChar (d : Nat) : Char :=
  match d with
  | 0 => '0' | 1 => '1' | 2 => '2' | 3 => '3' | 4 => '4'
  | 5 => '5' | 6 => '6' | 7 => '7' | 8 => '8' | _ => '9'

/-- str(n) for a natural number. -/
def renderNat (n : Nat) : List Char :=
  (decDigits n).map digitChar

/-- str(n) for an integer. -/
def renderInt (n : Int) : List Char :=
  if n < 0 then '-' :: renderNat (-n).toNat else renderNat n.toNat

/-- The numeric value of one character, if it is a decimal digit. -/
def parseDigit (c : Char) : Option Nat :=
  if 48 ≤ c.toNat ∧ c.toNat ≤ 57 then some (c.toNat - 48) else none

/-- int(s) for a non-negative decimal token; none models the ValueError on
an empty or non-numeric token. -/
def parseNat (cs : List Char) : Option Nat :=
  if cs.isEmpty then none
  else
    cs.foldl
      (fun a c =>
        match a, parseDigit c with
        | some v, some d => some (v * 10 + d)
        | _, _ => none)
      (some 0)

/-- int(s) with an optional leading minus sign. -/
def parseInt (cs : List Char) : Option Int :=
  if cs.head? = some '-' then (parseNat cs.tail).map (fun n => -(n : Int))
  else (parseNat cs).map (fun n => (n : Int))

/-- The separator fold step of str.split(): a space closes the current
token, any other character extends it. -/
def splitStep (c : Char) (acc : List (List Char)) : List (List Char) :=
  if c = ' ' then [] :: acc
  else
    match acc with
    | [] => [[c]]
    | t :: ts => (c :: t) :: ts

/-- line.split(): whitespace-separated tokens, empty tokens dropped (the
lines written by the program contain only spaces as whitespace). -/
def splitLine (cs : List Char) : List (List Char) :=
  (cs.foldr splitStep []).filter (fun t => ¬ t.isEmpty)

/-- " ".join(tokens). -/
def joinLine : List (List Char) → List Char
  | [] => []
  | [t] => t
  | t :: ts => t ++ ' ' :: joinLine ts

/-- list(map(int, tokens)): left to right, failing on the first bad token. -/
def parseTokens : List (List Char) → Option (List Int)
  | [] => some []
  | t :: ts =>
    match parseInt t, parseTokens ts with
    | some v, some vs => some (v :: vs)
    | _, _ => none

/-- The four text lines of the persisted format. -/
structure MatrixFile where
  line1 : List Char
  line2 : List Char
  line3 : List Char
  line4 : List Char
deriving DecidableEq

/-- CCSMatrix.save_matrix_to_file: the four lines written for a matrix. -/
def CCSMatrix.save_matrix_to_file (m : CCSMatrix) : MatrixFile :=
  { line1 := joinLine [renderInt m.rows, renderInt m.cols]
    line2 := joinLine (m.values.map renderInt)
    line3 := joinLine (m.row_indices.map renderInt)
    line4 := joinLine (m.col_pointers.map renderInt) }

/-- CCSMatrix.read_matrix_from_file: four sequential field assignments with
no validation; a parse error on a later line leaves the assignments already
made in place (the Bool records whether the whole read succeeded).  Values
are modeled as integers (the source parses them with float). -/
def CCSMatrix.read_matrix_from_file (m : CCSMatrix) (file : MatrixFile) :
    CCSMatrix × Bool :=
  match parseTokens (splitLine file.line1) with
  | some [r, c] =>
    let m1 : CCSMatrix := { m with rows := r, cols := c }
    match parseTokens (splitLine file.line2) with
    | some vs =>
      let m2 : CCSMatrix := { m1 with values := vs }
      match parseTokens (splitLine file.line3) with
      | some ris =>
        let m3 : CCSMatrix := { m2 with row_indices := ris }
        match parseTokens (splitLine file.line4) with
        | some cps => ({ m3 with col_pointers := cps }, true)
        | none => (m3, false)
      | none => (m2, false)
    | none => (m1, false)
  | _ => (m, false)

/-! Dense materialization (to_dense_matrix). -/

/-- One assignment dense[row, col] = value; the row index is an integer and
is non-negative in the regime the invariants guarantee. -/
def setEntry (d : List (List Int)) (r : Int) (c : Nat) (v : Int) : List (List Int) :=
  d.set r.toNat ((d.getD r.toNat []).set c v)

/-- Reading one entry of the dense representation. -/
def getEntry (d : List (List Int)) (r c : Nat) : Int :=
  (d.getD r []).getD c 0

/-- CCSMatrix.to_dense_matrix: a zero grid of shape rows x cols, then one
assignment per stored entry, column by column in storage order. -/
def CCSMatrix.to_dense_matrix (m : CCSMatrix) : List (List Int) :=
  (List.range m.cols.toNat).foldl
    (fun dense col =>
      (intRange (m.ptr col) (m.ptr (col + 1))).foldl
        (fun dense i =>
          setEntry dense (m.row_indices.getD i.toNat 0) col (m.values.getD i.toNat 0))
        dense)
    (List.replicate m.rows.toNat (List.replicate m.cols.toNat 0))

/-- A matrix with a duplicated row index inside one column. -/
def dupM : CCSMatrix :=
  { rows := 2, cols := 1, values := [7, 9], row_indices := [0, 0],
    col_pointers := [0, 2] }

/-- A four-line file whose col_pointers line has length 1 although the
header declares two columns. -/
def badFile : MatrixFile :=
  { line1 := ['2', ' ', '2'], line2 := ['5'], line3 := ['0'], line4 := ['0'] }

/-- A four-line file whose third line is not numeric. -/
def badFile3 : MatrixFile :=
  { line1 := ['2', ' ', '2'], line2 := ['5'], line3 := ['x'], line4 := ['0'] }

/-! Helper lemmas about slices and pointer lists. -/

theorem pySlice_eq {α : Type} (l : List α) {s e : Int} (hs : 0 ≤ s) :
    pySlice l s e = (l.drop s.toNat).take (e.toNat - s.toNat) := by
  unfold pySlice
  congr 1
  omega

theorem pySlice_append {α : Type} (l : List α) {a p e : Int}
    (h0 : 0 ≤ a) (h1 : a ≤ p) (h2 : p ≤ e) :
    pySlice l a p ++ pySlice l p e = pySlice l a e := by
  have hp : 0 ≤ p := le_trans h0 h1
  rw [pySlice_eq l h0, pySlice_eq l hp, pySlice_eq l h0]
  have hd : l.drop p.toNat = (l.drop a.toNat).drop (p.toNat - a.toNat) := by
    rw [List.drop_drop]
    congr 1
    omega
  rw [hd, ← List.take_add]
  congr 1
  omega

theorem length_pySlice {α : Type} (l : List α) {s e : Int}
    (h0 : 0 ≤ s) (h1 : s ≤ e) (h2 : e ≤ (l.length : Int)) :
    (pySlice l s e).length = (e - s).toNat := by
  unfold pySlice
  rw [List.length_take, List.length_drop]
  omega

theorem sorted_getD_mono {ps : List Int} (h : List.Sorted (· ≤ ·) ps) {i j : Nat}
    (hij : i ≤ j) (hj : j < ps.length) : ps.getD i 0 ≤ ps.getD j 0 := by
  rcases Nat.eq_or_lt_of_le hij with rfl | hlt
  · exact le_refl _
  · have hi : i < ps.length := lt_trans hlt hj
    rw [List.getD_eq_getElem ps 0 hi, List.getD_eq_getElem ps 0 hj]
    exact List.pairwise_iff_get.mp h ⟨i, hi⟩ ⟨j, hj⟩ hlt

theorem sorted_le_getLastD {p : Int} {t : List Int}
    (h : List.Sorted (· ≤ ·) (p :: t)) : p ≤ t.getLastD p := by
  rcases List.eq_nil_or_concat t with rfl | ⟨t0, x, rfl⟩
  · simp
  · have hx : x ∈ t0.concat x := by simp [List.concat_eq_append]
    have := (List.sorted_cons.mp h).1 x hx
    simpa [List.getLastD_eq_getLast?, List.getLast?_concat] using this

theorem flatMap_slices_aux :
    ∀ (ps : List Int) (l : List Int) (a : Int), 0 ≤ a →
      List.Sorted (· ≤ ·) (a :: ps) →
      (List.range ps.length).flatMap
          (fun c => pySlice l ((a :: ps).getD c 0) ((a :: ps).getD (c + 1) 0)) =
        pySlice l a (ps.getLastD a)
  | [], l, a, _, _ => by
      simp [pySlice]
  | p :: ps, l, a, ha, hs => by
      have hap : a ≤ p := (List.sorted_cons.mp hs).1 p (by simp)
      have hp : 0 ≤ p := le_trans ha hap
      have hs' : List.Sorted (· ≤ ·) (p :: ps) := (List.sorted_cons.mp hs).2
      have ih := flatMap_slices_aux ps l p hp hs'
      rw [List.length_cons, List.range_succ_eq_map, List.flatMap_cons, List.flatMap_map]
      have hshift :
          (List.range ps.length).flatMap
              (fun c => pySlice l ((a :: p :: ps).getD (c + 1) 0)
                ((a :: p :: ps).getD (c + 1 + 1) 0)) =
            (List.range ps.length).flatMap
              (fun c => pySlice l ((p :: ps).getD c 0) ((p :: ps).getD (c + 1) 0)) := by
        apply List.flatMap_congr
        intro c _
        rfl
      simp only [Nat.succ_eq_add_one] at *
      rw [hshift, ih, List.getLastD_cons]
      have hlast : p ≤ ps.getLastD p := sorted_le_getLastD hs'
      simpa using pySlice_append l ha hap hlast

/-! Consequences of the invariants for the pointer array. -/

theorem WF.cols_nonneg {m : CCSMatrix} (hm : WF m) : 0 ≤ m.cols := by
  obtain ⟨-, h2, -, h4, -, -⟩ := hm
  have : m.col_pointers ≠ [] := by
    intro h
    rw [h] at h4
    simp at h4
  have : 1 ≤ m.col_pointers.length := List.length_pos.mpr this
  omega

theorem WF.ptrs_len {m : CCSMatrix} (hm : WF m) :
    m.col_pointers.length = m.cols.toNat + 1 := by
  have hc := hm.cols_nonneg
  obtain ⟨-, h2, -, -, -, -⟩ := hm
  omega

theorem WF.ptr_zero {m : CCSMatrix} (hm : WF m) : m.ptr 0 = 0 := by
  obtain ⟨-, -, -, h4, -, -⟩ := hm
  unfold CCSMatrix.ptr
  cases hcp : m.col_pointers with
  | nil => rw [hcp] at h4; simp at h4
  | cons a t =>
    rw [hcp] at h4
    simp at h4
    simp [h4]

theorem WF.ptr_last {m : CCSMatrix} (hm : WF m) :
    m.ptr m.cols.toNat = (m.values.length : Int) := by
  have hlen := hm.ptrs_len
  obtain ⟨-, -, -, -, h5, -⟩ := hm
  unfold CCSMatrix.ptr
  have hne : m.col_pointers ≠ [] := by
    intro h
    rw [h] at hlen
    simp at hlen
  rw [List.getLast?_eq_getElem? ] at h5
  have hidx : m.col_pointers.length - 1 = m.cols.toNat := by omega
  rw [hidx] at h5
  have hlt : m.cols.toNat < m.col_pointers.length := by omega
  rw [List.getElem?_eq_getElem hlt] at h5
  rw [List.getD_eq_getElem _ _ hlt]
  exact Option.some_injective _ h5

theorem WF.ptr_mono {m : CCSMatrix} (hm : WF m) {i j : Nat}
    (hij : i ≤ j) (hj : j ≤ m.cols.toNat) : m.ptr i ≤ m.ptr j := by
  have hlen := hm.ptrs_len
  obtain ⟨-, -, h3, -, -, -⟩ := hm
  exact sorted_getD_mono h3 hij (by omega)

theorem WF.ptr_nonneg {m : CCSMatrix} (hm : WF m) {i : Nat}
    (hi : i ≤ m.cols.toNat) : 0 ≤ m.ptr i := by
  have h0 := hm.ptr_zero
  have := hm.ptr_mono (Nat.zero_le i) hi
  omega

theorem WF.ptr_le_len {m : CCSMatrix} (hm : WF m) {i : Nat}
    (hi : i ≤ m.cols.toNat) : m.ptr i ≤ (m.values.length : Int) := by
  have hl := hm.ptr_last
  have := hm.ptr_mono hi (le_refl m.cols.toNat)
  omega

theorem WF.length_colData {m : CCSMatrix} (hm : WF m) {c : Nat}
    (hc : c < m.cols.toNat) :
    ((m.colData c).length : Int) = m.ptr (c + 1) - m.ptr c := by
  unfold CCSMatrix.colData
  have h0 : 0 ≤ m.ptr c := hm.ptr_nonneg (by omega)
  have h1 : m.ptr c ≤ m.ptr (c + 1) := hm.ptr_mono (by omega) (by omega)
  have h2 : m.ptr (c + 1) ≤ (m.values.length : Int) := hm.ptr_le_len (by omega)
  rw [length_pySlice _ h0 h1 h2]
  omega

theorem WF.length_colRows {m : CCSMatrix} (hm : WF m) {c : Nat}
    (hc : c < m.cols.toNat) :
    ((m.colRows c).length : Int) = m.ptr (c + 1) - m.ptr c := by
  have hvr := hm.1
  unfold CCSMatrix.colRows
  have h0 : 0 ≤ m.ptr c := hm.ptr_nonneg (by omega)
  have h1 : m.ptr c ≤ m.ptr (c + 1) := hm.ptr_mono (by omega) (by omega)
  have h2 : m.ptr (c + 1) ≤ (m.row_indices.length : Int) := by
    have := hm.ptr_le_len (show c + 1 ≤ m.cols.toNat by omega)
    omega
  rw [length_pySlice _ h0 h1 h2]
  omega

theorem WF.colRows_length_eq {m : CCSMatrix} (hm : WF m) {c : Nat}
    (hc : c < m.cols.toNat) : (m.colData c).length = (m.colRows c).length := by
  have h1 := hm.length_colData hc
  have h2 := hm.length_colRows hc
  omega

/-- The column slices of a well-formed matrix tile the whole values array. -/
theorem WF.flatMap_colData {m : CCSMatrix} (hm : WF m) :
    (List.range m.cols.toNat).flatMap (fun c => m.colData c) = m.values := by
  have hlen := hm.ptrs_len
  obtain ⟨-, -, h3, h4, h5, -⟩ := hm
  cases hcp : m.col_pointers with
  | nil => rw [hcp] at h4; simp at h4
  | cons a ps =>
    rw [hcp] at h4 h5 h3 hlen
    simp only [List.head?_cons, Option.some_inj] at h4
    subst h4
    have hps : ps.length = m.cols.toNat := by
      simp at hlen
      omega
    have hgl : ps.getLastD 0 = (m.values.length : Int) := by
      have := List.getLastD_cons (0 : Int) (0 : Int) ps
      rw [List.getLastD_eq_getLast?, h5] at this
      simpa [List.getLastD_cons] using this.symm
    unfold CCSMatrix.colData CCSMatrix.ptr
    rw [hcp, ← hps]
    rw [flatMap_slices_aux ps m.values 0 (le_refl 0) h3]
    rw [hgl]
    simp [pySlice]

/-- The column slices of a well-formed matrix tile the row index array. -/
theorem WF.flatMap_colRows {m : CCSMatrix} (hm : WF m) :
    (List.range m.cols.toNat).flatMap (fun c => m.colRows c) = m.row_indices := by
  have hlen := hm.ptrs_len
  have h1 := hm.1
  obtain ⟨-, -, h3, h4, h5, -⟩ := hm
  cases hcp : m.col_pointers with
  | nil => rw [hcp] at h4; simp at h4
  | cons a ps =>
    rw [hcp] at h4 h5 h3 hlen
    simp only [List.head?_cons, Option.some_inj] at h4
    subst h4
    have hps : ps.length = m.cols.toNat := by
      simp at hlen
      omega
    have hgl : ps.getLastD 0 = (m.row_indices.length : Int) := by
      have := List.getLastD_cons (0 : Int) (0 : Int) ps
      rw [List.getLastD_eq_getLast?, h5] at this
      rw [← h1]
      simpa [List.getLastD_cons] using this.symm
    unfold CCSMatrix.colRows CCSMatrix.ptr
    rw [hcp, ← hps]
    rw [flatMap_slices_aux ps m.row_indices 0 (le_refl 0) h3]
    rw [hgl]
    simp [pySlice]

/-! Helper lemmas about the running-total pointer rebuild (scanl). -/

theorem scanl_add_getD :
    ∀ (ds : List Int) (a : Int) (p : Nat), p ≤ ds.length →
      (List.scanl (· + ·) a ds).getD p 0 = a + (ds.take p).sum
  | [], a, 0, _ => by simp
  | [], a, p + 1, hp => by simp at hp
  | d :: ds, a, 0, _ => by simp
  | d :: ds, a, p + 1, hp => by
      rw [List.scanl_cons]
      simp only [List.singleton_append, List.getD_cons_succ]
      rw [scanl_add_getD ds (a + d) p (by simpa using hp)]
      simp [List.sum_cons]
      ring

theorem scanl_add_getLast? :
    ∀ (ds : List Int) (a : Int),
      (List.scanl (· + ·) a ds).getLast? = some (a + ds.sum)
  | [], a => by simp
  | d :: ds, a => by
      rw [List.scanl_cons]
      have hne : List.scanl (· + ·) (a + d) ds ≠ [] := by
        intro h
        have hl := congrArg List.length h
        simp [List.length_scanl] at hl
      have hcons : (a :: List.scanl (· + ·) (a + d) ds).getLast? =
          (List.scanl (· + ·) (a + d) ds).getLast? := by
        have := List.getLast?_append_of_ne_nil [a] hne
        simpa using this
      rw [List.singleton_append, hcons, scanl_add_getLast? ds (a + d)]
      congr 1
      simp [List.sum_cons]
      ring

theorem scanl_add_le :
    ∀ (ds : List Int) (a : Int), (∀ d ∈ ds, 0 ≤ d) →
      ∀ x ∈ List.scanl (· + ·) a ds, a ≤ x
  | [], a, _, x, hx => by
      simp at hx
      omega
  | d :: ds, a, hds, x, hx => by
      rw [List.scanl_cons, List.singleton_append, List.mem_cons] at hx
      rcases hx with rfl | hx
      · exact le_refl x
      · have hd : 0 ≤ d := hds d (by simp)
        have := scanl_add_le ds (a + d) (fun e he => hds e (by simp [he])) x hx
        omega

theorem scanl_add_sorted :
    ∀ (ds : List Int) (a : Int), (∀ d ∈ ds, 0 ≤ d) →
      List.Sorted (· ≤ ·) (List.scanl (· + ·) a ds)
  | [], a, _ => by simp
  | d :: ds, a, hds => by
      rw [List.scanl_cons, List.singleton_append]
      rw [List.sorted_cons]
      constructor
      · intro b hb
        have hd : 0 ≤ d := hds d (by simp)
        have := scanl_add_le ds (a + d) (fun e he => hds e (by simp [he])) b hb
        omega
      · exact scanl_add_sorted ds (a + d) (fun e he => hds e (by simp [he]))

theorem scanl_head? {α : Type} (f : α → α → α) (a : α) (ds : List α) :
    (List.scanl f a ds).head? = some a := by
  cases ds <;> simp

theorem scanl_diffs :
    ∀ (ps : List Int) (a : Int),
      List.scanl (· + ·) a
          ((List.range ps.length).map
            (fun c => (a :: ps).getD (c + 1) 0 - (a :: ps).getD c 0)) =
        a :: ps
  | [], a => by simp
  | p :: ps, a => by
      have hmap :
          (List.range (p :: ps).length).map
              (fun c => (a :: p :: ps).getD (c + 1) 0 - (a :: p :: ps).getD c 0) =
            (p - a) :: (List.range ps.length).map
              (fun c => (p :: ps).getD (c + 1) 0 - (p :: ps).getD c 0) := by
        rw [List.length_cons, List.range_succ_eq_map, List.map_cons, List.map_map]
        refine congrArg₂ (· :: ·) (by simp) ?_
        apply List.map_congr_left
        intro c _
        simp [Function.comp, List.getD_cons_succ]
      rw [hmap, List.scanl_cons]
      have ha : a + (p - a) = p := by ring
      rw [List.singleton_append, ha, scanl_diffs ps p]

/-! The permutation computed by the sort, and the rebuilt arrays. -/

theorem sorted_indices_perm (m : CCSMatrix) :
    m.sorted_indices.Perm (List.range m.cols.toNat) :=
  List.perm_insertionSort _ _

theorem sorted_indices_length (m : CCSMatrix) :
    m.sorted_indices.length = m.cols.toNat := by
  rw [(sorted_indices_perm m).length_eq, List.length_range]

theorem mem_sorted_indices {m : CCSMatrix} {c : Nat} :
    c ∈ m.sorted_indices ↔ c < m.cols.toNat := by
  rw [(sorted_indices_perm m).mem_iff, List.mem_range]

theorem sorted_indices_sorted (m : CCSMatrix) :
    List.Sorted (sumKeyLe m.calculate_column_sums) m.sorted_indices := by
  haveI : IsTotal Nat (sumKeyLe m.calculate_column_sums) := ⟨fun _ _ => le_total _ _⟩
  haveI : IsTrans Nat (sumKeyLe m.calculate_column_sums) := ⟨fun _ _ _ => le_trans⟩
  exact List.sorted_insertionSort _ _

theorem join_slice_nat {α : Type} :
    ∀ (L : List (List α)) (p : Nat), p < L.length →
      ((L.flatten.drop (((L.take p).map List.length).sum)).take
          ((((L.take (p + 1)).map List.length).sum) - (((L.take p).map List.length).sum))) =
        L.getD p []
  | [], p, hp => by simp at hp
  | B :: L, 0, _ => by
      simp only [List.take_zero, List.map_nil, List.sum_nil, List.drop_zero, Nat.zero_add,
        List.take_succ_cons, List.map_cons, List.sum_cons, List.flatten_cons,
        List.getD_cons_zero, Nat.sub_zero]
      simp [List.take_left]
  | B :: L, p + 1, hp => by
      have ih := join_slice_nat L p (by simpa using hp)
      simp only [List.take_succ_cons, List.map_cons, List.sum_cons, List.flatten_cons,
        List.getD_cons_succ]
      have hc : B.length + ((L.take (p + 1)).map List.length).sum -
          (B.length + ((L.take p).map List.length).sum) =
          ((L.take (p + 1)).map List.length).sum - ((L.take p).map List.length).sum := by
        omega
      rw [hc, List.drop_append]
      exact ih

/-- The new pointer array of rearrange_columns, described positionally. -/
theorem rearrange_ptr {m : CCSMatrix} (hm : WF m) {p : Nat} (hp : p ≤ m.cols.toNat) :
    m.rearrange_columns.ptr p =
      ((((m.sorted_indices.take p).map (fun c => (m.colData c).length)).sum : Nat) : Int) := by
  have hlen : p ≤ (m.sorted_indices.map (fun c => m.ptr (c + 1) - m.ptr c)).length := by
    rw [List.length_map, sorted_indices_length]
    exact hp
  have h1 : m.rearrange_columns.ptr p =
      (List.scanl (· + ·) 0
        (m.sorted_indices.map (fun c => m.ptr (c + 1) - m.ptr c))).getD p 0 := rfl
  rw [h1, scanl_add_getD _ 0 p hlen]
  rw [← List.map_take]
  have hcongr :
      (m.sorted_indices.take p).map (fun c => m.ptr (c + 1) - m.ptr c) =
        (m.sorted_indices.take p).map (fun c => (((m.colData c).length : Nat) : Int)) := by
    apply List.map_congr_left
    intro c hc
    have hcm : c ∈ m.sorted_indices := List.mem_of_mem_take hc
    have hclt : c < m.cols.toNat := mem_sorted_indices.mp hcm
    rw [hm.length_colData hclt]
  rw [hcongr]
  rw [show ((m.sorted_indices.take p).map (fun c => (((m.colData c).length : Nat) : Int))) =
      (((m.sorted_indices.take p).map (fun c => (m.colData c).length)).map Nat.cast) by
    rw [List.map_map]; rfl]
  rw [← Nat.cast_list_sum]
  omega

/-- Each rebuilt column of rearrange_columns is the original column slice,
taken verbatim from the sorted position list. -/
theorem rearrange_colData {m : CCSMatrix} (hm : WF m) {p : Nat}
    (hp : p < m.cols.toNat) :
    m.rearrange_columns.colData p = m.colData (m.sorted_indices.getD p 0) := by
  have hidx : m.sorted_indices.length = m.cols.toNat := sorted_indices_length m
  have hL : p < (m.sorted_indices.map (fun c => m.colData c)).length := by
    rw [List.length_map, hidx]
    exact hp
  have hvals : m.rearrange_columns.values =
      (m.sorted_indices.map (fun c => m.colData c)).flatten := by
    show m.sorted_indices.flatMap (fun c => m.colData c) = _
    rw [List.flatMap_def]
  have hsum : ∀ q, q ≤ m.cols.toNat →
      m.rearrange_columns.ptr q =
        ((((m.sorted_indices.map (fun c => m.colData c)).take q).map List.length).sum : Int) := by
    intro q hq
    rw [rearrange_ptr hm hq, ← List.map_take, List.map_map]
    rfl
  unfold CCSMatrix.colData
  rw [hvals, hsum p (by omega), hsum (p + 1) (by omega)]
  rw [pySlice_eq _ (by positivity)]
  rw [Int.toNat_natCast, Int.toNat_natCast]
  rw [join_slice_nat _ p hL]
  rw [List.getD_eq_getElem _ _ hL, List.getElem_map]
  rw [List.getD_eq_getElem _ 0 (by omega)]
  rfl

/-- Same statement for the row-index column slices. -/
theorem rearrange_colRows {m : CCSMatrix} (hm : WF m) {p : Nat}
    (hp : p < m.cols.toNat) :
    m.rearrange_columns.colRows p = m.colRows (m.sorted_indices.getD p 0) := by
  have hidx : m.sorted_indices.length = m.cols.toNat := sorted_indices_length m
  have hL : p < (m.sorted_indices.map (fun c => m.colRows c)).length := by
    rw [List.length_map, hidx]
    exact hp
  have hvals : m.rearrange_columns.row_indices =
      (m.sorted_indices.map (fun c => m.colRows c)).flatten := by
    show m.sorted_indices.flatMap (fun c => m.colRows c) = _
    rw [List.flatMap_def]
  have hsum : ∀ q, q ≤ m.cols.toNat →
      m.rearrange_columns.ptr q =
        ((((m.sorted_indices.map (fun c => m.colRows c)).take q).map List.length).sum : Int) := by
    intro q hq
    rw [rearrange_ptr hm hq, ← List.map_take, List.map_map]
    congr 1
    refine congrArg List.sum ?_
    apply List.map_congr_left
    intro c hc
    have hcm : c ∈ m.sorted_indices := List.mem_of_mem_take hc
    have := hm.colRows_length_eq (mem_sorted_indices.mp hcm)
    simpa [Function.comp] using this
  unfold CCSMatrix.colRows
  rw [hvals, hsum p (by omega), hsum (p + 1) (by omega)]
  rw [pySlice_eq _ (by positivity)]
  rw [Int.toNat_natCast, Int.toNat_natCast]
  rw [join_slice_nat _ p hL]
  rw [List.getD_eq_getElem _ _ hL, List.getElem_map]
  rw [List.getD_eq_getElem _ 0 (by omega)]
  rfl

theorem map_getD_range {α β : Type} :
    ∀ (l : List α) (f : α → β) (d : α),
      (List.range l.length).map (fun p => f (l.getD p d)) = l.map f
  | [], _, _ => by simp
  | a :: l, f, d => by
      rw [List.length_cons, List.range_succ_eq_map, List.map_cons, List.map_map]
      rw [List.getD_cons_zero, List.map_cons]
      refine congrArg₂ (· :: ·) rfl ?_
      rw [show ((fun p => f ((a :: l).getD p d)) ∘ Nat.succ) =
          (fun p => f (l.getD p d)) by
        funext p
        simp [Function.comp, List.getD_cons_succ]]
      exact map_getD_range l f d

theorem getD_calculate_column_sums {m : CCSMatrix} {c : Nat} (hc : c < m.cols.toNat) :
    m.calculate_column_sums.getD c 0 = (m.colData c).sum := by
  unfold CCSMatrix.calculate_column_sums
  have hlen : c < ((List.range m.cols.toNat).map (fun c => (m.colData c).sum)).length := by
    rw [List.length_map, List.length_range]
    exact hc
  rw [List.getD_eq_getElem _ _ hlen, List.getElem_map, List.getElem_range]

/-- The new column sums are the old sums read along the sorted positions. -/
theorem rearrange_column_sums {m : CCSMatrix} (hm : WF m) :
    m.rearrange_columns.calculate_column_sums =
      m.sorted_indices.map (fun c => (m.colData c).sum) := by
  have hcols : m.rearrange_columns.cols = m.cols := rfl
  unfold CCSMatrix.calculate_column_sums
  rw [hcols]
  have hstep : (List.range m.cols.toNat).map (fun p => (m.rearrange_columns.colData p).sum) =
      (List.range m.cols.toNat).map (fun p => (m.colData (m.sorted_indices.getD p 0)).sum) := by
    apply List.map_congr_left
    intro p hp
    rw [rearrange_colData hm (List.mem_range.mp hp)]
  rw [hstep, ← sorted_indices_length m]
  exact map_getD_range m.sorted_indices (fun c => (m.colData c).sum) 0

/-- Interleaving two flatMaps whose blocks agree in length. -/
theorem zip_flatMap {γ α β : Type} (f : γ → List α) (g : γ → List β) :
    ∀ (l : List γ), (∀ c ∈ l, (f c).length = (g c).length) →
      (l.flatMap f).zip (l.flatMap g) = l.flatMap (fun c => (f c).zip (g c))
  | [], _ => by simp
  | c :: l, hl => by
      rw [List.flatMap_cons, List.flatMap_cons, List.flatMap_cons]
      rw [List.zip_append (hl c (by simp))]
      rw [zip_flatMap f g l (fun e he => hl e (by simp [he]))]

/-- rearrange_columns preserves invariants 1-4. -/
theorem WF.rearrange {m : CCSMatrix} (hm : WF m) : WF m.rearrange_columns := by
  have hidx : m.sorted_indices.length = m.cols.toNat := sorted_indices_length m
  have hperm : m.sorted_indices.Perm (List.range m.cols.toNat) := sorted_indices_perm m
  have hvals : m.rearrange_columns.values.Perm m.values := by
    have := hperm.flatMap_right (fun c => m.colData c)
    rw [hm.flatMap_colData] at this
    exact this
  have hrows : m.rearrange_columns.row_indices.Perm m.row_indices := by
    have := hperm.flatMap_right (fun c => m.colRows c)
    rw [hm.flatMap_colRows] at this
    exact this
  have hdiff : ∀ d ∈ m.sorted_indices.map (fun c => m.ptr (c + 1) - m.ptr c), 0 ≤ d := by
    intro d hd
    rw [List.mem_map] at hd
    obtain ⟨c, hc, rfl⟩ := hd
    have hclt : c < m.cols.toNat := mem_sorted_indices.mp hc
    have := hm.ptr_mono (show c ≤ c + 1 by omega) (show c + 1 ≤ m.cols.toNat by omega)
    omega
  refine ⟨?_, ?_, ?_, ?_, ?_, ?_⟩
  · rw [hvals.length_eq, hrows.length_eq]
    exact hm.1
  · show ((List.scanl (· + ·) 0
        (m.sorted_indices.map (fun c => m.ptr (c + 1) - m.ptr c))).length : Int) = m.cols + 1
    rw [List.length_scanl, List.length_map, hidx]
    have := hm.cols_nonneg
    omega
  · exact scanl_add_sorted _ 0 hdiff
  · exact scanl_head? _ 0 _
  · show (List.scanl (· + ·) 0
        (m.sorted_indices.map (fun c => m.ptr (c + 1) - m.ptr c))).getLast? =
      some (m.rearrange_columns.values.length : Int)
    rw [scanl_add_getLast?]
    have hsum : (m.sorted_indices.map (fun c => m.ptr (c + 1) - m.ptr c)).sum =
        (m.rearrange_columns.values.length : Int) := by
      have hmap : m.sorted_indices.map (fun c => m.ptr (c + 1) - m.ptr c) =
          m.sorted_indices.map (fun c => (((m.colData c).length : Nat) : Int)) := by
        apply List.map_congr_left
        intro c hc
        rw [hm.length_colData (mem_sorted_indices.mp hc)]
      rw [hmap]
      have hlen : m.rearrange_columns.values.length =
          (m.sorted_indices.map (fun c => (m.colData c).length)).sum := by
        show (m.sorted_indices.flatMap (fun c => m.colData c)).length = _
        rw [List.length_flatMap]
        rfl
      rw [hlen, Nat.cast_list_sum, List.map_map]
      rfl
    rw [hsum]
    simp
  · intro r hr
    exact hm.2.2.2.2.2 r (hrows.mem_iff.mp hr)

/-! Stability of the sort, via pair sublists. -/

theorem pair_sublist_range {a b n : Nat} (hab : a < b) (hbn : b < n) :
    [a, b].Sublist (List.range n) := by
  induction n with
  | zero => omega
  | succ n ih =>
    rw [List.range_succ]
    rcases Nat.lt_or_ge b n with hb | hb
    · exact (ih hb).trans (List.sublist_append_left _ _)
    · have hbn2 : b = n := by omega
      subst hbn2
      have ha : [a].Sublist (List.range b) :=
        List.singleton_sublist.mpr (List.mem_range.mpr hab)
      have happ : ([a] ++ [b]).Sublist (List.range b ++ [b]) :=
        List.Sublist.append ha (List.Sublist.refl _)
      simpa using happ

theorem sublist_pair_antisymm {α : Type} :
    ∀ (l : List α), l.Nodup → ∀ x y, [x, y].Sublist l → [y, x].Sublist l → x = y := by
  intro l
  induction l with
  | nil =>
    intro _ x y h1 _
    simp at h1
  | cons a t ih =>
    intro hn x y h1 h2
    have hna : a ∉ t := (List.nodup_cons.mp hn).1
    have hnt : t.Nodup := (List.nodup_cons.mp hn).2
    cases h1 with
    | cons _ h1t =>
      cases h2 with
      | cons _ h2t => exact ih hnt x y h1t h2t
      | cons₂ _ h2t =>
        have hy : a ∈ t := h1t.subset (by simp)
        exact absurd hy hna
    | cons₂ _ h1t =>
      cases h2 with
      | cons _ h2t =>
        have hx : a ∈ t := h2t.subset (by simp)
        exact absurd hx hna
      | cons₂ _ h2t => rfl

theorem sorted_indices_nodup (m : CCSMatrix) : m.sorted_indices.Nodup :=
  (sorted_indices_perm m).nodup_iff.mpr (List.nodup_range _)

/-- The sort output is pairwise increasing in (sum, original index): the
stability of sorted with a derived key. -/
theorem sorted_indices_pairwise_lexLt (m : CCSMatrix) :
    List.Pairwise (lexLt m.calculate_column_sums) m.sorted_indices := by
  rw [List.pairwise_iff_forall_sublist]
  intro a b hsub
  have hr : sumKeyLe m.calculate_column_sums a b :=
    List.pairwise_iff_forall_sublist.mp (sorted_indices_sorted m) hsub
  have hnd : m.sorted_indices.Nodup := sorted_indices_nodup m
  have hne : a ≠ b := by
    intro h
    subst h
    exact (List.nodup_iff_sublist.mp hnd a) hsub
  rcases lt_or_eq_of_le hr with hlt | heq
  · exact Or.inl hlt
  · refine Or.inr ⟨heq, ?_⟩
    by_contra hab
    have hba : b < a := by omega
    have haN : a < m.cols.toNat := by
      have : a ∈ m.sorted_indices := hsub.subset (by simp)
      exact mem_sorted_indices.mp this
    have hsubr : [b, a].Sublist (List.range m.cols.toNat) := pair_sublist_range hba haN
    have hpw : List.Pairwise (sumKeyLe m.calculate_column_sums) [b, a] :=
      List.pairwise_pair.mpr (le_of_eq heq.symm)
    have hsub2 : [b, a].Sublist m.sorted_indices :=
      List.sublist_insertionSort hpw hsubr
    exact hne (sublist_pair_antisymm m.sorted_indices hnd a b hsub hsub2)

/-- C1: for every matrix state satisfying invariants 1-4, after
rearrange_columns the column sums are non-decreasing, the multiset of
(value, row index) pairs is unchanged, each rebuilt column carries the
original column's (value, row) slices verbatim (so the per-column multiset
of (row, value) pairs is preserved exactly), len(values) is unchanged and
the final col_pointers entry is unchanged. -/
theorem claim_C1 (m : CCSMatrix) (hm : WF m) :
    List.Sorted (· ≤ ·) m.rearrange_columns.calculate_column_sums ∧
    (m.rearrange_columns.values.zip m.rearrange_columns.row_indices).Perm
      (m.values.zip m.row_indices) ∧
    (∀ p, p < m.cols.toNat →
      m.rearrange_columns.colData p = m.colData (m.sorted_indices.getD p 0) ∧
      m.rearrange_columns.colRows p = m.colRows (m.sorted_indices.getD p 0)) ∧
    m.rearrange_columns.values.length = m.values.length ∧
    m.rearrange_columns.col_pointers.getLast? = m.col_pointers.getLast? := by
  have hperm := sorted_indices_perm m
  have hvalsperm : m.rearrange_columns.values.Perm m.values := by
    have hfm := hperm.flatMap_right (fun c => m.colData c)
    rw [hm.flatMap_colData] at hfm
    exact hfm
  refine ⟨?_, ?_, ?_, ?_, ?_⟩
  · rw [rearrange_column_sums hm]
    have hpw : List.Pairwise
        (fun a b => (m.colData a).sum ≤ (m.colData b).sum) m.sorted_indices := by
      refine (sorted_indices_sorted m).imp_of_mem ?_
      intro a b ha hb hr
      have haN := mem_sorted_indices.mp ha
      have hbN := mem_sorted_indices.mp hb
      unfold sumKeyLe at hr
      rw [getD_calculate_column_sums haN, getD_calculate_column_sums hbN] at hr
      exact hr
    exact List.Pairwise.map _ (fun a b hab => hab) hpw
  · have hzipL : m.rearrange_columns.values.zip m.rearrange_columns.row_indices =
        m.sorted_indices.flatMap (fun c => (m.colData c).zip (m.colRows c)) := by
      show (m.sorted_indices.flatMap (fun c => m.colData c)).zip
          (m.sorted_indices.flatMap (fun c => m.colRows c)) = _
      apply zip_flatMap
      intro c hc
      exact hm.colRows_length_eq (mem_sorted_indices.mp hc)
    have hzipR : m.values.zip m.row_indices =
        (List.range m.cols.toNat).flatMap (fun c => (m.colData c).zip (m.colRows c)) := by
      rw [← hm.flatMap_colData, ← hm.flatMap_colRows]
      exact zip_flatMap _ _ _
        (fun c hc => hm.colRows_length_eq (List.mem_range.mp hc))
    rw [hzipL, hzipR]
    exact hperm.flatMap_right _
  · intro p hp
    exact ⟨rearrange_colData hm hp, rearrange_colRows hm hp⟩
  · exact hvalsperm.length_eq
  · have hwf2 := hm.rearrange
    have h5new := hwf2.2.2.2.2.1
    have h5old := hm.2.2.2.2.1
    rw [h5new, h5old, hvalsperm.length_eq]

/-- Witness for C1: the concrete specification matrix satisfies the
invariants and the conclusion. -/
theorem claim_C1_witness :
    List.Sorted (· ≤ ·) exampleM.rearrange_columns.calculate_column_sums ∧
    (exampleM.rearrange_columns.values.zip exampleM.rearrange_columns.row_indices).Perm
      (exampleM.values.zip exampleM.row_indices) ∧
    (∀ p, p < exampleM.cols.toNat →
      exampleM.rearrange_columns.colData p =
        exampleM.colData (exampleM.sorted_indices.getD p 0) ∧
      exampleM.rearrange_columns.colRows p =
        exampleM.colRows (exampleM.sorted_indices.getD p 0)) ∧
    exampleM.rearrange_columns.values.length = exampleM.values.length ∧
    exampleM.rearrange_columns.col_pointers.getLast? = exampleM.col_pointers.getLast? :=
  claim_C1 exampleM (by decide)

/-- C6: the permutation computed by rearrange-by-sum is the stable ascending
order of column indices by column sum: a permutation of range(cols) that is
pairwise strictly increasing in the lexicographic (sum, original index)
order, so equal-sum columns keep ascending original indices. -/
theorem claim_C6 (m : CCSMatrix) :
    m.sorted_indices.Perm (List.range m.cols.toNat) ∧
    List.Pairwise (lexLt m.calculate_column_sums) m.sorted_indices :=
  ⟨sorted_indices_perm m, sorted_indices_pairwise_lexLt m⟩

/-- C8: the concrete specification scenario: column sums [5, 1, 9], new
column order [1, 0, 2], rebuilt arrays, unchanged pointers, and the
permutation report. -/
theorem claim_C8 :
    exampleM.calculate_column_sums = [5, 1, 9] ∧
    exampleM.sorted_indices = [1, 0, 2] ∧
    exampleM.rearrange_columns =
      { rows := 3, cols := 3, values := [1, 5, 9], row_indices := [2, 0, 1],
        col_pointers := [0, 1, 2, 3] } ∧
    exampleM.rearrange_report = [(0, 1, 1), (1, 0, 5), (2, 2, 9)] := by
  decide

theorem calculate_column_sums_length (m : CCSMatrix) :
    m.calculate_column_sums.length = m.cols.toNat := by
  unfold CCSMatrix.calculate_column_sums
  rw [List.length_map, List.length_range]

/-- When the sums are already non-decreasing, the sort returns the identity
permutation. -/
theorem sorted_indices_of_sorted_sums {m : CCSMatrix}
    (hs : List.Sorted (· ≤ ·) m.calculate_column_sums) :
    m.sorted_indices = List.range m.cols.toNat := by
  apply List.Sorted.insertionSort_eq
  rw [List.Sorted, List.pairwise_iff_get]
  intro i j hij
  have hgi : (List.range m.cols.toNat).get i = i.val := by
    simp [List.getElem_range]
  have hgj : (List.range m.cols.toNat).get j = j.val := by
    simp [List.getElem_range]
  rw [hgi, hgj]
  have hlen : m.calculate_column_sums.length = m.cols.toNat :=
    calculate_column_sums_length m
  have hj : j.val < m.calculate_column_sums.length := by
    rw [hlen]
    have := j.isLt
    simpa using this
  exact sorted_getD_mono hs (le_of_lt hij) hj

/-- The identity permutation rebuilds the matrix unchanged. -/
theorem rearrange_eq_self_of_id {m : CCSMatrix} (hm : WF m)
    (hid : m.sorted_indices = List.range m.cols.toNat) :
    m.rearrange_columns = m := by
  have h4 := hm.2.2.2.1
  cases hcp : m.col_pointers with
  | nil =>
    rw [hcp] at h4
    simp at h4
  | cons a ps =>
    have ha : a = 0 := by
      rw [hcp] at h4
      simpa using h4
    subst ha
    have hlen : ps.length = m.cols.toNat := by
      have hpl := hm.ptrs_len
      rw [hcp] at hpl
      simpa using hpl
    have hfun : (fun c => m.ptr (c + 1) - m.ptr c) =
        (fun c => ((0 : Int) :: ps).getD (c + 1) 0 - ((0 : Int) :: ps).getD c 0) := by
      funext c
      unfold CCSMatrix.ptr
      rw [hcp]
    have hptrs : m.rearrange_columns.col_pointers = m.col_pointers := by
      show List.scanl (· + ·) 0
          (m.sorted_indices.map (fun c => m.ptr (c + 1) - m.ptr c)) = _
      rw [hid, hfun, ← hlen, scanl_diffs, hcp]
    have hvals : m.rearrange_columns.values = m.values := by
      show m.sorted_indices.flatMap (fun c => m.colData c) = m.values
      rw [hid]
      exact hm.flatMap_colData
    have hrows : m.rearrange_columns.row_indices = m.row_indices := by
      show m.sorted_indices.flatMap (fun c => m.colRows c) = m.row_indices
      rw [hid]
      exact hm.flatMap_colRows
    have hmk : m.rearrange_columns = CCSMatrix.mk m.rows m.cols
        m.rearrange_columns.values m.rearrange_columns.row_indices
        m.rearrange_columns.col_pointers := rfl
    rw [hmk, hvals, hrows, hptrs]

theorem rearrange_sums_sorted {m : CCSMatrix} (hm : WF m) :
    List.Sorted (· ≤ ·) m.rearrange_columns.calculate_column_sums := by
  rw [rearrange_column_sums hm]
  have hpw : List.Pairwise
      (fun a b => (m.colData a).sum ≤ (m.colData b).sum) m.sorted_indices := by
    refine (sorted_indices_sorted m).imp_of_mem ?_
    intro a b ha hb hr
    have haN := mem_sorted_indices.mp ha
    have hbN := mem_sorted_indices.mp hb
    unfold sumKeyLe at hr
    rw [getD_calculate_column_sums haN, getD_calculate_column_sums hbN] at hr
    exact hr
  exact List.Pairwise.map _ (fun a b hab => hab) hpw

/-- C7: rearrange_columns is idempotent on every state satisfying
invariants 1-4: the second application leaves the matrix exactly as the
first left it. -/
theorem claim_C7 (m : CCSMatrix) (hm : WF m) :
    m.rearrange_columns.rearrange_columns = m.rearrange_columns :=
  rearrange_eq_self_of_id hm.rearrange
    (sorted_indices_of_sorted_sums (rearrange_sums_sorted hm))

/-- Witness for C7 at the concrete specification matrix. -/
theorem claim_C7_witness :
    exampleM.rearrange_columns.rearrange_columns = exampleM.rearrange_columns :=
  claim_C7 exampleM (by decide)

/-! The random construction loops. -/

theorem sorted_mem_le_getLast {p : List Int} {a : Int}
    (hs : List.Sorted (· ≤ ·) p) (hl : p.getLast? = some a) :
    ∀ x ∈ p, x ≤ a := by
  intro x hx
  rcases List.eq_nil_or_concat p with rfl | ⟨q, b, rfl⟩
  · simp at hx
  · have hb : b = a := by
      rw [List.concat_eq_append, List.getLast?_append_of_ne_nil q (by simp)] at hl
      simpa using hl
    subst hb
    rw [List.concat_eq_append] at hx hs
    rcases List.mem_append.mp hx with hx | hx
    · exact ((List.pairwise_append.mp hs).2.2 x hx b (by simp))
    · simp at hx
      omega

theorem sorted_append_single {p : List Int} {a b : Int}
    (hs : List.Sorted (· ≤ ·) p) (hl : p.getLast? = some a) (hab : a ≤ b) :
    List.Sorted (· ≤ ·) (p ++ [b]) := by
  rw [List.Sorted, List.pairwise_append]
  refine ⟨hs, by simp, ?_⟩
  intro x hx y hy
  simp at hy
  subst hy
  have := sorted_mem_le_getLast hs hl x hx
  omega

/-- The inner row loop appends equally many values and row indices; the new
row indices come from the looped range and the new values from the randint
stream. -/
theorem randStep_fold (rowsN : Nat) (density : ℚ) (g : Nat → ℚ) (h : Nat → Int)
    (col : Nat) :
    ∀ (l : List Nat) (v r : List Int),
      ∃ ev er,
        (l.foldl (randStep rowsN density g h col) (v, r)).1 = v ++ ev ∧
        (l.foldl (randStep rowsN density g h col) (v, r)).2 = r ++ er ∧
        ev.length = er.length ∧
        (∀ x ∈ er, ∃ row, row ∈ l ∧ x = ((row : Nat) : Int)) ∧
        (∀ w ∈ ev, ∃ k, w = h k)
  | [], v, r => ⟨[], [], by simp, by simp, rfl, by simp, by simp⟩
  | row :: l, v, r => by
      rw [List.foldl_cons]
      by_cases hacc : g (col * rowsN + row) < density
      · have hstep : randStep rowsN density g h col (v, r) row =
            (v ++ [h v.length], r ++ [(row : Int)]) := by
          unfold randStep
          rw [if_pos hacc]
        rw [hstep]
        obtain ⟨ev, er, h1, h2, h3, h4, h5⟩ :=
          randStep_fold rowsN density g h col l (v ++ [h v.length]) (r ++ [(row : Int)])
        refine ⟨[h v.length] ++ ev, [(row : Int)] ++ er, ?_, ?_, by simp [h3], ?_, ?_⟩
        · rw [h1, List.append_assoc]
        · rw [h2, List.append_assoc]
        · intro x hx
          rcases List.mem_append.mp hx with hx | hx
          · simp at hx
            exact ⟨row, by simp, hx⟩
          · obtain ⟨row2, hrow2, hxe⟩ := h4 x hx
            exact ⟨row2, by simp [hrow2], hxe⟩
        · intro w hw
          rcases List.mem_append.mp hw with hw | hw
          · simp at hw
            exact ⟨v.length, hw⟩
          · exact h5 w hw
      · have hstep : randStep rowsN density g h col (v, r) row = (v, r) := by
          unfold randStep
          rw [if_neg hacc]
        rw [hstep]
        obtain ⟨ev, er, h1, h2, h3, h4, h5⟩ := randStep_fold rowsN density g h col l v r
        refine ⟨ev, er, h1, h2, h3, ?_, h5⟩
        intro x hx
        obtain ⟨row2, hrow2, hxe⟩ := h4 x hx
        exact ⟨row2, by simp [hrow2], hxe⟩

/-- The outer column loop keeps the construction invariants: parallel array
lengths, non-decreasing pointers ending at len(values), one new pointer per
column, and membership bounds for the new entries. -/
theorem randColumn_fold (rowsN : Nat) (density : ℚ) (g : Nat → ℚ) (h : Nat → Int) :
    ∀ (cl : List Nat) (v r p : List Int),
      v.length = r.length →
      List.Sorted (· ≤ ·) p →
      p.getLast? = some (v.length : Int) →
      ((cl.foldl (randColumn rowsN density g h) (v, r, p)).1.length =
          (cl.foldl (randColumn rowsN density g h) (v, r, p)).2.1.length ∧
        List.Sorted (· ≤ ·) (cl.foldl (randColumn rowsN density g h) (v, r, p)).2.2 ∧
        (cl.foldl (randColumn rowsN density g h) (v, r, p)).2.2.getLast? =
          some (((cl.foldl (randColumn rowsN density g h) (v, r, p)).1.length : Int)) ∧
        (cl.foldl (randColumn rowsN density g h) (v, r, p)).2.2.length =
          p.length + cl.length ∧
        (∃ ext, (cl.foldl (randColumn rowsN density g h) (v, r, p)).2.2 = p ++ ext) ∧
        (∀ x ∈ (cl.foldl (randColumn rowsN density g h) (v, r, p)).2.1,
          x ∈ r ∨ (0 ≤ x ∧ x < (rowsN : Int))) ∧
        (∀ w ∈ (cl.foldl (randColumn rowsN density g h) (v, r, p)).1,
          w ∈ v ∨ ∃ k, w = h k))
  | [], v, r, p, hvr, hps, hpl =>
      ⟨hvr, hps, by simpa using hpl, by simp, ⟨[], by simp⟩,
        fun x hx => Or.inl hx, fun w hw => Or.inl hw⟩
  | col :: cl, v, r, p, hvr, hps, hpl => by
      rw [List.foldl_cons]
      obtain ⟨ev, er, h1, h2, h3, h4, h5⟩ :=
        randStep_fold rowsN density g h col (List.range rowsN) v r
      have hcol : randColumn rowsN density g h (v, r, p) col =
          (v ++ ev, r ++ er, p ++ [((v ++ ev).length : Int)]) := by
        unfold randColumn
        simp only
        rw [show ((List.range rowsN).foldl (randStep rowsN density g h col) (v, r)) =
            (v ++ ev, r ++ er) from Prod.ext h1 h2]
      rw [hcol]
      have hvr2 : (v ++ ev).length = (r ++ er).length := by
        simp [hvr, h3]
      have hps2 : List.Sorted (· ≤ ·) (p ++ [((v ++ ev).length : Int)]) := by
        refine sorted_append_single hps hpl ?_
        simp
      have hpl2 : (p ++ [((v ++ ev).length : Int)]).getLast? =
          some (((v ++ ev).length : Int)) := by
        rw [List.getLast?_append_of_ne_nil p (by simp)]
        simp
      obtain ⟨g1, g2, g3, g4, g5, g6, g7⟩ :=
        randColumn_fold rowsN density g h cl (v ++ ev) (r ++ er)
          (p ++ [((v ++ ev).length : Int)]) hvr2 hps2 hpl2
      refine ⟨g1, g2, g3, ?_, ?_, ?_, ?_⟩
      · rw [g4]
        simp
        omega
      · obtain ⟨ext, hext⟩ := g5
        exact ⟨[((v ++ ev).length : Int)] ++ ext, by rw [hext, List.append_assoc]⟩
      · intro x hx
        rcases g6 x hx with hx2 | hx2
        · rcases List.mem_append.mp hx2 with hx3 | hx3
          · exact Or.inl hx3
          · obtain ⟨row2, hrow2, rfl⟩ := h4 x hx3
            refine Or.inr ⟨by positivity, ?_⟩
            have := List.mem_range.mp hrow2
            exact_mod_cast this
        · exact Or.inr hx2
      · intro w hw
        rcases g7 w hw with hw2 | hw2
        · rcases List.mem_append.mp hw2 with hw3 | hw3
          · exact Or.inl hw3
          · exact Or.inr (h5 w hw3)
        · exact Or.inr hw2

/-- C5: for every valid input (non-negative dimensions, density in (0,1])
and every behaviour of the random source within its contract, the generated
state satisfies invariants 1-4 and every stored value lies in [1, 100]. -/
theorem claim_C5 (rows cols : Int) (density : ℚ) (g : Nat → ℚ) (h : Nat → Int)
    (hrows : 0 ≤ rows) (hcols : 0 ≤ cols)
    (hd1 : 0 < density) (hd2 : density ≤ 1)
    (hg : ∀ n, 0 ≤ g n ∧ g n < 1) (hh : ∀ n, 1 ≤ h n ∧ h n ≤ 100) :
    ∃ M, create_random_matrix rows cols density g h = some M ∧ WF M ∧
      ∀ v ∈ M.values, 1 ≤ v ∧ v ≤ 100 := by
  obtain ⟨g1, g2, g3, g4, g5, g6, g7⟩ :=
    randColumn_fold rows.toNat density g h (List.range cols.toNat) [] [] [0]
      (by simp) (by simp) (by simp)
  set st := (List.range cols.toNat).foldl (randColumn rows.toNat density g h)
    ([], [], [0]) with hst
  refine ⟨CCSMatrix.mk rows cols st.1 st.2.1 st.2.2, ?_, ?_, ?_⟩
  · unfold create_random_matrix
    rw [if_pos ⟨hd1, hd2⟩]
  · refine ⟨g1, ?_, g2, ?_, g3, ?_⟩
    · show ((st.2.2.length : Nat) : Int) = cols + 1
      rw [g4]
      simp
      omega
    · obtain ⟨ext, hext⟩ := g5
      show st.2.2.head? = some 0
      rw [hext]
      rfl
    · intro x hx
      rcases g6 x hx with hx2 | hx2
      · simp at hx2
      · refine ⟨hx2.1, ?_⟩
        show x < rows
        have := hx2.2
        omega
  · intro w hw
    rcases g7 w hw with hw2 | hw2
    · simp at hw2
    · obtain ⟨k, rfl⟩ := hw2
      exact hh k

/-- Witness for C5 at concrete valid parameters and in-contract streams. -/
theorem claim_C5_witness :
    ∃ M, create_random_matrix 2 2 1 (fun _ => 0) (fun _ => 7) = some M ∧ WF M ∧
      ∀ v ∈ M.values, 1 ≤ v ∧ v ≤ 100 :=
  claim_C5 2 2 1 (fun _ => 0) (fun _ => 7) (by decide) (by decide) (by decide)
    (by decide) (by intro n; simp) (by intro n; simp)

/-- When every density test passes, the inner loop appends one entry per
row, in ascending row order. -/
theorem randStep_fold_all (rowsN : Nat) (density : ℚ) (g : Nat → ℚ) (h : Nat → Int)
    (col : Nat) (hacc : ∀ n, g n < density) :
    ∀ (l : List Nat) (v r : List Int),
      l.foldl (randStep rowsN density g h col) (v, r) =
        (v ++ (List.range l.length).map (fun k => h (v.length + k)),
          r ++ l.map (fun row => ((row : Nat) : Int)))
  | [], v, r => by simp
  | row :: l, v, r => by
      rw [List.foldl_cons]
      have hstep : randStep rowsN density g h col (v, r) row =
          (v ++ [h v.length], r ++ [(row : Int)]) := by
        unfold randStep
        rw [if_pos (hacc _)]
      rw [hstep, randStep_fold_all rowsN density g h col hacc l (v ++ [h v.length])
        (r ++ [(row : Int)])]
      refine congrArg₂ Prod.mk ?_ ?_
      · rw [List.append_assoc]
        refine congrArg (v ++ ·) ?_
        rw [List.length_cons, List.range_succ_eq_map, List.map_cons, List.map_map]
        rw [List.singleton_append]
        refine congrArg₂ (· :: ·) (by simp) ?_
        apply List.map_congr_left
        intro k _
        simp [Function.comp]
        congr 1
        omega
      · rw [List.append_assoc]
        rfl

/-- When every density test passes, the whole generation loop produces the
fully dense layout: all values drawn in order, each column listing rows
0, ..., rows - 1, and pointers growing by rows per column. -/
theorem randColumn_fold_all (rowsN : Nat) (density : ℚ) (g : Nat → ℚ) (h : Nat → Int)
    (hacc : ∀ n, g n < density) :
    ∀ (cl : List Nat) (v r p : List Int),
      cl.foldl (randColumn rowsN density g h) (v, r, p) =
        (v ++ (List.range (cl.length * rowsN)).map (fun k => h (v.length + k)),
          r ++ cl.flatMap (fun _ => (List.range rowsN).map (fun row => ((row : Nat) : Int))),
          p ++ (List.range cl.length).map
            (fun j => ((v.length + (j + 1) * rowsN : Nat) : Int)))
  | [], v, r, p => by simp
  | col :: cl, v, r, p => by
      rw [List.foldl_cons]
      have hcol : randColumn rowsN density g h (v, r, p) col =
          (v ++ (List.range rowsN).map (fun k => h (v.length + k)),
            r ++ (List.range rowsN).map (fun row => ((row : Nat) : Int)),
            p ++ [((v.length + rowsN : Nat) : Int)]) := by
        unfold randColumn
        simp only
        rw [randStep_fold_all rowsN density g h col hacc (List.range rowsN) v r]
        refine congrArg₂ Prod.mk ?_ (congrArg₂ Prod.mk ?_ ?_)
        · rw [List.length_range]
        · rfl
        · refine congrArg (p ++ ·) ?_
          refine congrArg (fun z => [z]) ?_
          rw [List.length_append, List.length_map, List.length_range, List.length_range]
      rw [hcol, randColumn_fold_all rowsN density g h hacc cl _ _ _]
      refine congrArg₂ Prod.mk ?_ (congrArg₂ Prod.mk ?_ ?_)
      · rw [List.append_assoc]
        refine congrArg (v ++ ·) ?_
        have hsplit : (col :: cl).length * rowsN = rowsN + cl.length * rowsN := by
          rw [List.length_cons]
          ring
        rw [hsplit, List.range_add, List.map_append, List.map_map]
        refine congrArg₂ (· ++ ·) rfl ?_
        apply List.map_congr_left
        intro k _
        simp only [Function.comp, List.length_append, List.length_map, List.length_range]
        congr 1
        omega
      · rw [List.append_assoc]
        refine congrArg (r ++ ·) ?_
        rw [List.flatMap_cons]
      · rw [List.append_assoc]
        refine congrArg (p ++ ·) ?_
        rw [List.length_cons, List.range_succ_eq_map, List.map_cons, List.map_map]
        rw [List.singleton_append]
        refine congrArg₂ (· :: ·) ?_ ?_
        · simp
        · apply List.map_congr_left
          intro j _
          simp only [Function.comp, List.length_append, List.length_map, List.length_range,
            Nat.succ_eq_add_one]
          congr 1
          ring

theorem flatMap_const_slice {α : Type} (n : Nat) (B : List α) {c : Nat} (hc : c < n) :
    (((List.range n).flatMap (fun _ => B)).drop (c * B.length)).take B.length = B := by
  have hrep : (List.range n).flatMap (fun _ => B) = (List.replicate n B).flatten := by
    rw [List.flatMap_def]
    refine congrArg List.flatten ?_
    rw [show (fun (_ : Nat) => B) = Function.const Nat B from rfl, List.map_const,
      List.length_range]
  rw [hrep]
  have hrlen : c < (List.replicate n B).length := by
    rw [List.length_replicate]
    exact hc
  have hmain := join_slice_nat (List.replicate n B) c hrlen
  have hsum : ∀ q, q ≤ n →
      (((List.replicate n B).take q).map List.length).sum = q * B.length := by
    intro q hq
    rw [List.take_replicate, show q ⊓ n = q by omega, List.map_replicate,
      List.sum_replicate, smul_eq_mul]
  rw [hsum c (by omega), hsum (c + 1) (by omega)] at hmain
  rw [show (c + 1) * B.length = c * B.length + B.length by ring] at hmain
  rw [Nat.add_sub_cancel_left] at hmain
  rw [hmain, List.getD_eq_getElem _ _ hrlen, List.getElem_replicate]

/-- C9: with density exactly 1 and a random source yielding reals in [0,1),
every position is stored: len(values) = rows * cols and every column's
slice of row_indices is exactly 0, 1, ..., rows - 1 in ascending order. -/
theorem claim_C9 (rows cols : Int) (g : Nat → ℚ) (h : Nat → Int)
    (hrows : 0 ≤ rows) (hcols : 0 ≤ cols) (hg : ∀ n, 0 ≤ g n ∧ g n < 1) :
    ∃ M, create_random_matrix rows cols 1 g h = some M ∧
      M.values.length = rows.toNat * cols.toNat ∧
      ∀ c, c < cols.toNat →
        M.colRows c = (List.range rows.toNat).map (fun row => ((row : Nat) : Int)) := by
  have hacc : ∀ n, g n < 1 := fun n => (hg n).2
  have hfold := randColumn_fold_all rows.toNat 1 g h hacc (List.range cols.toNat) [] [] [0]
  set st := (List.range cols.toNat).foldl (randColumn rows.toNat 1 g h)
    ([], [], [0]) with hst
  refine ⟨CCSMatrix.mk rows cols st.1 st.2.1 st.2.2, ?_, ?_, ?_⟩
  · unfold create_random_matrix
    rw [if_pos (by constructor <;> norm_num)]
  · show st.1.length = rows.toNat * cols.toNat
    rw [hfold]
    simp [List.length_range, Nat.mul_comm]
  · intro c hcn
    show pySlice st.2.1
        ((st.2.2).getD c 0) ((st.2.2).getD (c + 1) 0) = _
    have hrowidx : st.2.1 = (List.range cols.toNat).flatMap
        (fun _ => (List.range rows.toNat).map (fun row => ((row : Nat) : Int))) := by
      rw [hfold]
      simp
    have hptrs : st.2.2 = (0 : Int) :: (List.range cols.toNat).map
        (fun j => (((j + 1) * rows.toNat : Nat) : Int)) := by
      rw [hfold]
      simp
    have hptr : ∀ q, q ≤ cols.toNat →
        (st.2.2).getD q 0 = ((q * rows.toNat : Nat) : Int) := by
      intro q hq
      rw [hptrs]
      cases q with
      | zero => simp
      | succ q =>
        rw [List.getD_cons_succ]
        have hql : q < ((List.range cols.toNat).map
            (fun j => (((j + 1) * rows.toNat : Nat) : Int))).length := by
          rw [List.length_map, List.length_range]
          omega
        rw [List.getD_eq_getElem _ _ hql, List.getElem_map, List.getElem_range]
    rw [hptr c (by omega), hptr (c + 1) (by omega), hrowidx]
    unfold pySlice
    have htoNat1 : (((c * rows.toNat : Nat) : Int)).toNat = c * rows.toNat := by
      omega
    have htoNat2 : ((((c + 1) * rows.toNat : Nat) : Int) -
        ((c * rows.toNat : Nat) : Int)).toNat = rows.toNat := by
      have hmul : (c + 1) * rows.toNat = c * rows.toNat + rows.toNat := by ring
      omega
    rw [htoNat1, htoNat2]
    have hblen : ((List.range rows.toNat).map (fun row => ((row : Nat) : Int))).length =
        rows.toNat := by
      rw [List.length_map, List.length_range]
    have hfinal := flatMap_const_slice cols.toNat
      ((List.range rows.toNat).map (fun row => ((row : Nat) : Int))) hcn
    rw [hblen] at hfinal
    exact hfinal

/-- Witness for C9 at a concrete shape and in-contract stream. -/
theorem claim_C9_witness :
    ∃ M, create_random_matrix 2 3 1 (fun _ => 0) (fun n => 1 + n) = some M ∧
      M.values.length = (2 : Int).toNat * (3 : Int).toNat ∧
      ∀ c, c < (3 : Int).toNat →
        M.colRows c = (List.range (2 : Int).toNat).map (fun row => ((row : Nat) : Int)) :=
  claim_C9 2 3 (fun _ => 0) (fun n => 1 + n) (by decide) (by decide) (by intro n; simp)

/-- C3 counterexample: a negative row count is not rejected; with valid
density the construction succeeds and stores the negative dimension, so the
claim that negative dimensions fail with InvalidParameter is false. -/
theorem claim_C3_counterexample :
    ((-1 : Int) < 0) ∧
    create_random_matrix (-1) 2 1 (fun _ => 0) (fun _ => 1) =
      some (CCSMatrix.mk (-1) 2 [] [] [0, 0, 0]) := by
  constructor
  · decide
  · decide

/-- C3 as amended: the construction fails (ValueError) exactly when the
density is outside (0, 1] (zero rejected); dimensions are never checked, and
on a density rejection the caller's matrix object is left untouched. -/
theorem claim_C3 (m : CCSMatrix) (rows cols : Int) (density : ℚ)
    (g : Nat → ℚ) (h : Nat → Int) :
    (create_random_matrix rows cols density g h = none ↔
      ¬(0 < density ∧ density ≤ 1)) ∧
    (¬(0 < density ∧ density ≤ 1) →
      m.create_random_matrix_on rows cols density g h = m) := by
  unfold CCSMatrix.create_random_matrix_on create_random_matrix
  by_cases hd : 0 < density ∧ density ≤ 1
  · rw [if_pos hd]
    simp [hd]
  · rw [if_neg hd]
    simp [hd]

/-- Witness for C3 (amended) at a rejected density. -/
theorem claim_C3_witness :
    (create_random_matrix 3 3 2 (fun _ => 0) (fun _ => 1) = none ↔
      ¬((0 : ℚ) < 2 ∧ (2 : ℚ) ≤ 1)) ∧
    (¬((0 : ℚ) < 2 ∧ (2 : ℚ) ≤ 1) →
      CCSMatrix.init.create_random_matrix_on 3 3 2 (fun _ => 0) (fun _ => 1) =
        CCSMatrix.init) :=
  claim_C3 CCSMatrix.init 3 3 2 (fun _ => 0) (fun _ => 1)

/-! Decimal rendering and parsing round-trips. -/

theorem decDigitsAux_lt :
    ∀ (fuel n : Nat), ∀ d ∈ decDigitsAux fuel n, d < 10
  | 0, _, d, hd => by simp [decDigitsAux] at hd
  | fuel + 1, n, d, hd => by
      unfold decDigitsAux at hd
      by_cases hn : n < 10
      · rw [if_pos hn] at hd
        simp at hd
        omega
      · rw [if_neg hn] at hd
        rcases List.mem_append.mp hd with hd | hd
        · exact decDigitsAux_lt fuel (n / 10) d hd
        · simp at hd
          omega

theorem decDigitsAux_ne_nil (fuel n : Nat) : decDigitsAux (fuel + 1) n ≠ [] := by
  unfold decDigitsAux
  by_cases hn : n < 10
  · rw [if_pos hn]
    simp
  · rw [if_neg hn]
    simp

theorem digitsVal_append (ds : List Nat) (d : Nat) :
    digitsVal (ds ++ [d]) = digitsVal ds * 10 + d := by
  unfold digitsVal
  rw [List.foldl_append]
  rfl

theorem digitsVal_decDigitsAux :
    ∀ (fuel n : Nat), n < 10 ^ fuel → digitsVal (decDigitsAux fuel n) = n
  | 0, n, hn => by
      simp at hn
      simp [hn, decDigitsAux, digitsVal]
  | fuel + 1, n, hn => by
      unfold decDigitsAux
      by_cases h10 : n < 10
      · rw [if_pos h10]
        simp [digitsVal]
      · rw [if_neg h10]
        rw [digitsVal_append]
        have hdiv : n / 10 < 10 ^ fuel := by
          rw [pow_succ] at hn
          omega
        rw [digitsVal_decDigitsAux fuel (n / 10) hdiv]
        omega

theorem digitsVal_decDigits (n : Nat) : digitsVal (decDigits n) = n := by
  unfold decDigits
  apply digitsVal_decDigitsAux
  calc n < 2 ^ n := Nat.lt_two_pow n
    _ ≤ 10 ^ n := Nat.pow_le_pow_left (by omega) n
    _ ≤ 10 ^ (n + 1) := Nat.pow_le_pow_right (by omega) (by omega)

theorem decDigits_ne_nil (n : Nat) : decDigits n ≠ [] :=
  decDigitsAux_ne_nil n n

theorem decDigits_lt (n : Nat) : ∀ d ∈ decDigits n, d < 10 :=
  decDigitsAux_lt (n + 1) n

theorem parseDigit_digitChar : ∀ d, d < 10 → parseDigit (digitChar d) = some d := by
  decide

theorem digitChar_ne_space : ∀ d, d < 10 → digitChar d ≠ ' ' := by
  decide

theorem digitChar_ne_minus : ∀ d, d < 10 → digitChar d ≠ '-' := by
  decide

theorem parseNat_foldl :
    ∀ (ds : List Nat), (∀ d ∈ ds, d < 10) → ∀ (a : Nat),
      (ds.map digitChar).foldl
          (fun x c =>
            match x, parseDigit c with
            | some v, some d => some (v * 10 + d)
            | _, _ => none)
          (some a) =
        some (ds.foldl (fun x d => x * 10 + d) a)
  | [], _, a => rfl
  | d :: ds, hds, a => by
      rw [List.map_cons, List.foldl_cons, List.foldl_cons]
      rw [show (match some a, parseDigit (digitChar d) with
          | some v, some e => some (v * 10 + e)
          | _, _ => none) = some (a * 10 + d) by
        rw [parseDigit_digitChar d (hds d (by simp))]]
      exact parseNat_foldl ds (fun e he => hds e (by simp [he])) (a * 10 + d)

theorem parseNat_renderNat (n : Nat) : parseNat (renderNat n) = some n := by
  unfold parseNat renderNat
  have hne : (decDigits n).map digitChar ≠ [] := by
    intro h
    exact decDigits_ne_nil n (List.map_eq_nil_iff.mp h)
  rw [if_neg (by simpa [List.isEmpty_iff] using hne)]
  rw [parseNat_foldl (decDigits n) (decDigits_lt n) 0]
  rw [show (decDigits n).foldl (fun x d => x * 10 + d) 0 = digitsVal (decDigits n) from rfl]
  rw [digitsVal_decDigits]

theorem renderNat_head_not_minus (n : Nat) : (renderNat n).head? ≠ some '-' := by
  unfold renderNat
  cases hd : decDigits n with
  | nil => exact absurd hd (decDigits_ne_nil n)
  | cons d ds =>
    rw [List.map_cons, List.head?_cons]
    intro h
    simp at h
    have hdm : d ∈ decDigits n := by
      rw [hd]
      simp
    exact digitChar_ne_minus d (decDigits_lt n d hdm) h

theorem parseInt_renderInt (n : Int) : parseInt (renderInt n) = some n := by
  unfold parseInt renderInt
  by_cases hn : n < 0
  · rw [if_pos hn]
    rw [if_pos (by rw [List.head?_cons])]
    rw [List.tail_cons, parseNat_renderNat]
    simp
    omega
  · rw [if_neg hn]
    rw [if_neg (renderNat_head_not_minus n.toNat)]
    rw [parseNat_renderNat]
    simp
    omega

theorem renderInt_ne_nil (n : Int) : renderInt n ≠ [] := by
  unfold renderInt
  by_cases hn : n < 0
  · rw [if_pos hn]
    simp
  · rw [if_neg hn]
    unfold renderNat
    intro h
    exact decDigits_ne_nil n.toNat (List.map_eq_nil_iff.mp h)

theorem renderInt_no_space (n : Int) : ∀ c ∈ renderInt n, c ≠ ' ' := by
  unfold renderInt
  intro c hc
  have hrn : ∀ (k : Nat), c ∈ renderNat k → c ≠ ' ' := by
    intro k hck
    unfold renderNat at hck
    obtain ⟨d, hd, rfl⟩ := List.mem_map.mp hck
    exact digitChar_ne_space d (decDigits_lt k d hd)
  by_cases hn : n < 0
  · rw [if_pos hn] at hc
    rcases List.mem_cons.mp hc with rfl | hc
    · decide
    · exact hrn _ hc
  · rw [if_neg hn] at hc
    exact hrn _ hc

/-! Round-trip of the space join and the whitespace split. -/

theorem foldr_splitStep_token :
    ∀ (t : List Char) (x : List Char) (ts : List (List Char)),
      (∀ c ∈ t, c ≠ ' ') →
      t.foldr splitStep (x :: ts) = (t ++ x) :: ts
  | [], x, ts, _ => rfl
  | c :: t, x, ts, hsp => by
      rw [List.foldr_cons, foldr_splitStep_token t x ts (fun e he => hsp e (by simp [he]))]
      unfold splitStep
      rw [if_neg (hsp c (by simp))]
      rfl

theorem foldr_splitStep_single :
    ∀ (t : List Char), (∀ c ∈ t, c ≠ ' ') → t ≠ [] →
      t.foldr splitStep [] = [t]
  | [], _, hne => absurd rfl hne
  | c :: t, hsp, _ => by
      rw [List.foldr_cons]
      by_cases ht : t = []
      · subst ht
        show splitStep c [] = [[c]]
        unfold splitStep
        rw [if_neg (hsp c (by simp))]
      · rw [foldr_splitStep_single t (fun e he => hsp e (by simp [he])) ht]
        unfold splitStep
        rw [if_neg (hsp c (by simp))]

theorem splitLine_joinLine :
    ∀ (ts : List (List Char)),
      (∀ t ∈ ts, t ≠ [] ∧ ∀ c ∈ t, c ≠ ' ') →
      splitLine (joinLine ts) = ts
  | [], _ => rfl
  | [t], hts => by
      have hne : t ≠ [] := (hts t (by simp)).1
      have hsp : ∀ c ∈ t, c ≠ ' ' := (hts t (by simp)).2
      show splitLine (joinLine [t]) = [t]
      unfold joinLine splitLine
      rw [foldr_splitStep_single t hsp hne]
      rw [List.filter_cons]
      rw [show (decide ¬t.isEmpty = true) = true by
        simp [List.isEmpty_iff, hne]]
      rfl
  | t :: t2 :: ts, hts => by
      have hne : t ≠ [] := (hts t (by simp)).1
      have hsp : ∀ c ∈ t, c ≠ ' ' := (hts t (by simp)).2
      have ih := splitLine_joinLine (t2 :: ts) (fun e he => hts e (by simp [he]))
      show splitLine (t ++ ' ' :: joinLine (t2 :: ts)) = t :: t2 :: ts
      unfold splitLine
      rw [List.foldr_append, List.foldr_cons]
      rw [show splitStep ' ' ((joinLine (t2 :: ts)).foldr splitStep []) =
          [] :: (joinLine (t2 :: ts)).foldr splitStep [] by
        unfold splitStep
        rw [if_pos rfl]]
      rw [foldr_splitStep_token t [] _ hsp, List.append_nil]
      rw [List.filter_cons]
      rw [show (decide ¬t.isEmpty = true) = true by
        simp [List.isEmpty_iff, hne]]
      rw [if_pos rfl]
      unfold splitLine at ih
      rw [ih]

theorem parseTokens_map_renderInt :
    ∀ (xs : List Int), parseTokens (xs.map renderInt) = some xs
  | [] => rfl
  | x :: xs => by
      rw [List.map_cons]
      unfold parseTokens
      rw [parseInt_renderInt, parseTokens_map_renderInt xs]

theorem splitLine_joinLine_renderInt (xs : List Int) :
    splitLine (joinLine (xs.map renderInt)) = xs.map renderInt := by
  apply splitLine_joinLine
  intro t ht
  obtain ⟨x, hx, rfl⟩ := List.mem_map.mp ht
  exact ⟨renderInt_ne_nil x, renderInt_no_space x⟩

/-- C4: saving a matrix and loading the file back reproduces all five
fields exactly, whatever the prior state of the loading object. -/
theorem claim_C4 (m m0 : CCSMatrix) (hm : WF m) :
    m0.read_matrix_from_file m.save_matrix_to_file = (m, true) := by
  have h1 : parseTokens (splitLine (m.save_matrix_to_file).line1) =
      some [m.rows, m.cols] := by
    show parseTokens (splitLine (joinLine [renderInt m.rows, renderInt m.cols])) = _
    rw [show ([renderInt m.rows, renderInt m.cols] : List (List Char)) =
        [m.rows, m.cols].map renderInt from rfl]
    rw [splitLine_joinLine_renderInt, parseTokens_map_renderInt]
  have h2 : parseTokens (splitLine (m.save_matrix_to_file).line2) = some m.values := by
    show parseTokens (splitLine (joinLine (m.values.map renderInt))) = _
    rw [splitLine_joinLine_renderInt, parseTokens_map_renderInt]
  have h3 : parseTokens (splitLine (m.save_matrix_to_file).line3) =
      some m.row_indices := by
    show parseTokens (splitLine (joinLine (m.row_indices.map renderInt))) = _
    rw [splitLine_joinLine_renderInt, parseTokens_map_renderInt]
  have h4 : parseTokens (splitLine (m.save_matrix_to_file).line4) =
      some m.col_pointers := by
    show parseTokens (splitLine (joinLine (m.col_pointers.map renderInt))) = _
    rw [splitLine_joinLine_renderInt, parseTokens_map_renderInt]
  unfold CCSMatrix.read_matrix_from_file
  rw [h1, h2, h3, h4]

/-- Witness for C4 at the concrete specification matrix. -/
theorem claim_C4_witness :
    CCSMatrix.init.read_matrix_from_file exampleM.save_matrix_to_file =
      (exampleM, true) :=
  claim_C4 exampleM CCSMatrix.init (by decide)

/-- C2 counterexample: loading a file whose col_pointers line has length 1
while the header declares 2 columns succeeds (no MalformedMatrix), changes
the state, and commits a matrix violating invariant 2. -/
theorem claim_C2_counterexample :
    CCSMatrix.init.read_matrix_from_file badFile =
      (CCSMatrix.mk 2 2 [5] [0] [0], true) ∧
    ((CCSMatrix.mk 2 2 [5] [0] [0]).col_pointers.length : Int) ≠
      (CCSMatrix.mk 2 2 [5] [0] [0]).cols + 1 ∧
    CCSMatrix.mk 2 2 [5] [0] [0] ≠ CCSMatrix.init := by
  refine ⟨by decide, by decide, by decide⟩

/-- C2 as amended: read_matrix_from_file performs no invariant validation:
whenever the four lines parse, the parsed fields are committed verbatim,
malformed or not; and a parse failure on the third line leaves the already
assigned fields in place (a partial write). -/
theorem claim_C2 (m : CCSMatrix) (file : MatrixFile) (r c : Int) (vs : List Int)
    (h1 : parseTokens (splitLine file.line1) = some [r, c])
    (h2 : parseTokens (splitLine file.line2) = some vs) :
    (∀ ris cps, parseTokens (splitLine file.line3) = some ris →
      parseTokens (splitLine file.line4) = some cps →
      m.read_matrix_from_file file = (CCSMatrix.mk r c vs ris cps, true)) ∧
    (parseTokens (splitLine file.line3) = none →
      m.read_matrix_from_file file =
        (CCSMatrix.mk r c vs m.row_indices m.col_pointers, false)) := by
  constructor
  · intro ris cps h3 h4
    unfold CCSMatrix.read_matrix_from_file
    rw [h1, h2, h3, h4]
  · intro h3
    unfold CCSMatrix.read_matrix_from_file
    rw [h1, h2, h3]

/-- Witness for C2 (amended): the malformed file is committed, and the file
with a non-numeric third line leaves a partial write. -/
theorem claim_C2_witness :
    (∀ ris cps, parseTokens (splitLine badFile.line3) = some ris →
      parseTokens (splitLine badFile.line4) = some cps →
      CCSMatrix.init.read_matrix_from_file badFile =
        (CCSMatrix.mk 2 2 [5] ris cps, true)) ∧
    (parseTokens (splitLine badFile.line3) = none →
      CCSMatrix.init.read_matrix_from_file badFile =
        (CCSMatrix.mk 2 2 [5] CCSMatrix.init.row_indices CCSMatrix.init.col_pointers,
          false)) :=
  claim_C2 CCSMatrix.init badFile 2 2 [5] (by decide) (by decide)

/-! Dense materialization: each assignment overwrites one cell. -/

theorem getEntry_setEntry (d : List (List Int)) (r : Int) (c : Nat) (v : Int)
    (hr : 0 ≤ r) (hrd : r.toNat < d.length) (hcd : c < (d.getD r.toNat []).length)
    (rr cc : Nat) :
    getEntry (setEntry d r c v) rr cc =
      if r.toNat = rr ∧ c = cc then v else getEntry d rr cc := by
  unfold getEntry setEntry
  by_cases hrow : r.toNat = rr
  · subst hrow
    rw [List.getD_eq_getElem?_getD (d.set _ _), List.getElem?_set_self hrd]
    rw [Option.getD_some]
    by_cases hcol : c = cc
    · subst hcol
      rw [if_pos ⟨rfl, rfl⟩]
      rw [List.getD_eq_getElem?_getD _ c, List.getElem?_set_self hcd, Option.getD_some]
    · rw [if_neg (by intro h; exact hcol h.2)]
      rw [List.getD_eq_getElem?_getD _ cc, List.getElem?_set_ne hcol,
        ← List.getD_eq_getElem?_getD]
  · rw [if_neg (by intro h; exact hrow h.1)]
    rw [List.getD_eq_getElem?_getD (d.set _ _), List.getElem?_set_ne hrow,
      ← List.getD_eq_getElem?_getD]

theorem foldl_setEntry_spec :
    ∀ (W : List (Int × Nat × Int)) (d : List (List Int)) (R C : Nat),
      d.length = R → (∀ row ∈ d, row.length = C) →
      (∀ w ∈ W, 0 ≤ w.1 ∧ w.1.toNat < R ∧ w.2.1 < C) →
      ∀ rr cc : Nat,
        getEntry (W.foldl (fun dd w => setEntry dd w.1 w.2.1 w.2.2) d) rr cc =
          ((W.filter (fun w => decide (w.1.toNat = rr ∧ w.2.1 = cc))).getLast?).elim
            (getEntry d rr cc) (fun w => w.2.2)
  | [], d, R, C, _, _, _, rr, cc => rfl
  | w :: W, d, R, C, hdR, hdC, hW, rr, cc => by
      rw [List.foldl_cons, List.filter_cons]
      have hw := hW w (by simp)
      have hrd : w.1.toNat < d.length := by omega
      have hrect1 : (setEntry d w.1 w.2.1 w.2.2).length = R := by
        unfold setEntry
        rw [List.length_set]
        exact hdR
      have hmemrow : d.getD w.1.toNat [] ∈ d := by
        rw [List.getD_eq_getElem _ _ hrd]
        exact List.getElem_mem _
      have hrect2 : ∀ row ∈ setEntry d w.1 w.2.1 w.2.2, row.length = C := by
        intro row hrow
        rcases List.mem_or_eq_of_mem_set hrow with hrow2 | rfl
        · exact hdC row hrow2
        · rw [List.length_set]
          exact hdC _ hmemrow
      have ih := foldl_setEntry_spec W (setEntry d w.1 w.2.1 w.2.2) R C hrect1 hrect2
        (fun x hx => hW x (by simp [hx])) rr cc
      rw [ih]
      have hbase : getEntry (setEntry d w.1 w.2.1 w.2.2) rr cc =
          if w.1.toNat = rr ∧ w.2.1 = cc then w.2.2 else getEntry d rr cc := by
        apply getEntry_setEntry d w.1 w.2.1 w.2.2 hw.1 hrd
        rw [hdC _ hmemrow]
        exact hw.2.2
      by_cases hpw : w.1.toNat = rr ∧ w.2.1 = cc
      · rw [if_pos (by simpa using hpw)]
        cases hlast : (W.filter (fun x => decide (x.1.toNat = rr ∧ x.2.1 = cc))).getLast? with
        | some wl =>
          have hfne : W.filter (fun x => decide (x.1.toNat = rr ∧ x.2.1 = cc)) ≠ [] := by
            intro h0
            rw [h0] at hlast
            simp at hlast
          have hcons : (w :: W.filter
              (fun x => decide (x.1.toNat = rr ∧ x.2.1 = cc))).getLast? =
              (W.filter (fun x => decide (x.1.toNat = rr ∧ x.2.1 = cc))).getLast? := by
            have := List.getLast?_append_of_ne_nil [w] hfne
            simpa using this
          rw [hcons, hlast]
          rfl
        | none =>
          have hfnil : W.filter (fun x => decide (x.1.toNat = rr ∧ x.2.1 = cc)) = [] :=
            List.getLast?_eq_none_iff.mp hlast
          rw [hfnil]
          show getEntry (setEntry d w.1 w.2.1 w.2.2) rr cc = w.2.2
          rw [hbase, if_pos hpw]
      · rw [if_neg (by simpa using hpw)]
        cases hlast : (W.filter (fun x => decide (x.1.toNat = rr ∧ x.2.1 = cc))).getLast? with
        | some wl =>
          rfl
        | none =>
          show getEntry (setEntry d w.1 w.2.1 w.2.2) rr cc = getEntry d rr cc
          rw [hbase, if_neg hpw]

theorem foldl_flatMap_eq {α β γ : Type} (f : γ → α → γ) (g : β → List α) :
    ∀ (l : List β) (b : γ),
      (l.flatMap g).foldl f b = l.foldl (fun acc x => (g x).foldl f acc) b
  | [], _ => rfl
  | x :: l, b => by
      rw [List.flatMap_cons, List.foldl_append, List.foldl_cons]
      exact foldl_flatMap_eq f g l _

theorem flatMap_eq_single {α : Type} (F : Nat → List α) :
    ∀ (l : List Nat) (cc : Nat), cc ∈ l → l.Nodup →
      (∀ x ∈ l, x ≠ cc → F x = []) → l.flatMap F = F cc
  | [], cc, hcc, _, _ => by simp at hcc
  | a :: l, cc, hcc, hnd, hF => by
      rw [List.flatMap_cons]
      by_cases hac : a = cc
      · subst hac
        have hnil : l.flatMap F = [] := by
          rw [List.flatMap_eq_nil_iff]
          intro x hx
          apply hF x (by simp [hx])
          intro hxeq
          subst hxeq
          exact (List.nodup_cons.mp hnd).1 hx
        rw [hnil, List.append_nil]
      · rw [hF a (by simp) hac, List.nil_append]
        have hccl : cc ∈ l := by
          rcases List.mem_cons.mp hcc with h | h
          · exact absurd h.symm hac
          · exact h
        exact flatMap_eq_single F l cc hccl (List.nodup_cons.mp hnd).2
          (fun x hx => hF x (by simp [hx]))

theorem intRange_length (s e : Int) : (intRange s e).length = (e - s).toNat := by
  unfold intRange
  rw [List.length_map, List.length_range]

theorem pySlice_as_map (l : List Int) {s e : Int} (h0 : 0 ≤ s) (h1 : s ≤ e)
    (h2 : e ≤ (l.length : Int)) :
    pySlice l s e = (intRange s e).map (fun i => l.getD i.toNat 0) := by
  apply List.ext_getElem
  · rw [length_pySlice l h0 h1 h2, List.length_map, intRange_length]
  · intro k hk1 hk2
    rw [length_pySlice l h0 h1 h2] at hk1
    unfold pySlice
    rw [List.getElem_take, List.getElem_drop]
    unfold intRange
    rw [List.getElem_map, List.getElem_map, List.getElem_range]
    have hidx : (s + Int.ofNat k).toNat = s.toNat + k := by
      rw [Int.ofNat_eq_natCast]
      omega
    rw [hidx]
    rw [List.getD_eq_getElem _ _ (by omega)]

/-- C10: dense materialization writes entries in storage order, so a
duplicated (row, column) position holds exactly the value of the last
duplicate entry of that column; duplicates are overwritten, never summed. -/
theorem claim_C10 (m : CCSMatrix) (hm : WF m) (rr cc : Nat)
    (hrr : rr < m.rows.toNat) (hcc : cc < m.cols.toNat) :
    getEntry m.to_dense_matrix rr cc =
      ((((m.colRows cc).zip (m.colData cc)).filter
          (fun p => decide (p.1 = (rr : Int)))).getLast?).elim 0 (fun p => p.2) := by
  have h1 := hm.1
  have hin : ∀ col, col < m.cols.toNat →
      ∀ i ∈ intRange (m.ptr col) (m.ptr (col + 1)),
        0 ≤ i ∧ i.toNat < m.values.length := by
    intro col hcol i hi
    unfold intRange at hi
    obtain ⟨k, hk, rfl⟩ := List.mem_map.mp hi
    have hk2 := List.mem_range.mp hk
    have hs0 : 0 ≤ m.ptr col := hm.ptr_nonneg (by omega)
    have hse : m.ptr col ≤ m.ptr (col + 1) := hm.ptr_mono (by omega) (by omega)
    have hel : m.ptr (col + 1) ≤ (m.values.length : Int) := hm.ptr_le_len (by omega)
    rw [Int.ofNat_eq_natCast]
    omega
  have hWmem : ∀ w ∈ (List.range m.cols.toNat).flatMap
      (fun col => (intRange (m.ptr col) (m.ptr (col + 1))).map
        (fun i => (m.row_indices.getD i.toNat 0, col, m.values.getD i.toNat 0))),
      0 ≤ w.1 ∧ w.1.toNat < m.rows.toNat ∧ w.2.1 < m.cols.toNat := by
    intro w hw
    obtain ⟨col, hcolmem, hwb⟩ := List.mem_flatMap.mp hw
    obtain ⟨i, hi, rfl⟩ := List.mem_map.mp hwb
    have hcol := List.mem_range.mp hcolmem
    obtain ⟨hi0, hilen⟩ := hin col hcol i hi
    have hmemri : m.row_indices.getD i.toNat 0 ∈ m.row_indices := by
      rw [List.getD_eq_getElem _ _ (by omega)]
      exact List.getElem_mem _
    have hbound := hm.2.2.2.2.2 _ hmemri
    exact ⟨hbound.1, by omega, hcol⟩
  have hfold : m.to_dense_matrix =
      ((List.range m.cols.toNat).flatMap
        (fun col => (intRange (m.ptr col) (m.ptr (col + 1))).map
          (fun i => (m.row_indices.getD i.toNat 0, col, m.values.getD i.toNat 0)))).foldl
        (fun dd w => setEntry dd w.1 w.2.1 w.2.2)
        (List.replicate m.rows.toNat (List.replicate m.cols.toNat 0)) := by
    unfold CCSMatrix.to_dense_matrix
    rw [foldl_flatMap_eq]
    rw [show (fun (acc : List (List Int)) (col : Nat) =>
        ((intRange (m.ptr col) (m.ptr (col + 1))).map
          (fun i => (m.row_indices.getD i.toNat 0, col, m.values.getD i.toNat 0))).foldl
          (fun dd w => setEntry dd w.1 w.2.1 w.2.2) acc) =
        (fun (dense : List (List Int)) (col : Nat) =>
          (intRange (m.ptr col) (m.ptr (col + 1))).foldl
            (fun dense i => setEntry dense (m.row_indices.getD i.toNat 0) col
              (m.values.getD i.toNat 0)) dense) by
      funext acc col
      rw [List.foldl_map]]
  rw [hfold]
  rw [foldl_setEntry_spec _ _ m.rows.toNat m.cols.toNat (by rw [List.length_replicate])
    (by intro row hrow; rw [List.eq_of_mem_replicate hrow, List.length_replicate])
    hWmem rr cc]
  have hinit : getEntry (List.replicate m.rows.toNat (List.replicate m.cols.toNat 0))
      rr cc = 0 := by
    simp [getEntry, List.getD_eq_getElem?_getD, List.getElem?_replicate, hrr, hcc]
  rw [hinit]
  rw [List.filter_flatMap]
  rw [flatMap_eq_single _ (List.range m.cols.toNat) cc (List.mem_range.mpr hcc)
    (List.nodup_range _) ?hother]
  case hother =>
    intro col hcolmem hcolne
    rw [List.filter_eq_nil_iff]
    intro w hw
    obtain ⟨i, hi, rfl⟩ := List.mem_map.mp hw
    simp only [decide_eq_true_eq]
    intro hcontra
    exact hcolne hcontra.2
  rw [List.filter_map]
  rw [List.getLast?_map]
  have hs0 : 0 ≤ m.ptr cc := hm.ptr_nonneg (by omega)
  have hse : m.ptr cc ≤ m.ptr (cc + 1) := hm.ptr_mono (by omega) (by omega)
  have hev : m.ptr (cc + 1) ≤ (m.values.length : Int) := hm.ptr_le_len (by omega)
  have her : m.ptr (cc + 1) ≤ (m.row_indices.length : Int) := by omega
  have hcolRows : m.colRows cc = (intRange (m.ptr cc) (m.ptr (cc + 1))).map
      (fun i => m.row_indices.getD i.toNat 0) :=
    pySlice_as_map m.row_indices hs0 hse her
  have hcolData : m.colData cc = (intRange (m.ptr cc) (m.ptr (cc + 1))).map
      (fun i => m.values.getD i.toNat 0) :=
    pySlice_as_map m.values hs0 hse hev
  rw [hcolRows, hcolData, List.zip_map']
  rw [List.filter_map]
  rw [List.getLast?_map]
  have hpred : (intRange (m.ptr cc) (m.ptr (cc + 1))).filter
      ((fun w => decide (w.1.toNat = rr ∧ w.2.1 = cc)) ∘
        (fun i => (m.row_indices.getD i.toNat 0, cc, m.values.getD i.toNat 0))) =
      (intRange (m.ptr cc) (m.ptr (cc + 1))).filter
      ((fun p => decide (p.1 = (rr : Int))) ∘
        (fun i => (m.row_indices.getD i.toNat 0, m.values.getD i.toNat 0))) := by
    apply List.filter_congr
    intro i hi
    obtain ⟨hi0, hilen⟩ := hin cc hcc i hi
    have hmemri : m.row_indices.getD i.toNat 0 ∈ m.row_indices := by
      rw [List.getD_eq_getElem _ _ (by omega)]
      exact List.getElem_mem _
    have hbound := hm.2.2.2.2.2 _ hmemri
    simp only [Function.comp]
    rw [decide_eq_decide]
    constructor
    · intro hx
      omega
    · intro hx
      exact ⟨by omega, by simp⟩
  rw [hpred]
  cases hlast : ((intRange (m.ptr cc) (m.ptr (cc + 1))).filter
      ((fun p => decide (p.1 = (rr : Int))) ∘
        (fun i => (m.row_indices.getD i.toNat 0, m.values.getD i.toNat 0)))).getLast? with
  | none => rfl
  | some i => rfl

/-- Witness for C10: the duplicate-row matrix stores 9 at position (0, 0),
the value of the later duplicate, not the sum 16. -/
theorem claim_C10_witness :
    getEntry dupM.to_dense_matrix 0 0 =
      ((((dupM.colRows 0).zip (dupM.colData 0)).filter
          (fun p => decide (p.1 = ((0 : Nat) : Int)))).getLast?).elim 0 (fun p => p.2) :=
  claim_C10 dupM (by decide) 0 0 (by decide) (by decide)
